import Mathlib

/-!
# Atom: a toy electron-orbit simulation (`atom_simulation.cpp`)

A shallow embedding of `struct Electron`, `class AtomSimulation` and `main`.

Modelling conventions.

* `double` is embedded twice.  The first embedding (`Electron`, `AtomSimulation`, ...) reads
  it as exact rational arithmetic (`ℚ`): `+`, `*`, `/` are taken without rounding, overflow,
  NaN or infinities.  It carries the statements about the formulas the code evaluates, the
  electron counts and the text written.  The second embedding (`Dbl`, `ElectronD`,
  `AtomSimulationD`, ...) is the arithmetic of the machine, IEEE-754 binary64 with rounding
  to nearest, overflow to an infinity and NaN.  It carries the statements whose truth
  depends on rounding or overflow: the angle range after `step`, the elapsed time of the
  driver, the additivity of `step`, the position on the shell circle, and determinism.
* `int` values are modelled by `Int`; `size_t` and `unsigned int` values by `Nat`.  The
  occupancy vector is a `List Int`; the cast `static_cast<int>(shellIndex) + 1` is taken
  without wrap-around (fewer than `2 ^ 31` shells).
* `std::fmod` is defined as the C standard describes it: `x - n * y` with `n` the quotient
  `x / y` truncated toward zero.
* The random engine `std::mt19937` together with
  `std::uniform_real_distribution<double>` belongs to the C++ standard library, not to
  this program.  It is a parameter (`Rng`): a seeding function and a pure draw function
  threading the engine state.
* `std::cos` / `std::sin` are parameters as well (`StdLib`).
* `std::cout` is modelled by the `String` written so far together with the formatting
  state the program touches (`fixed`, precision, field width).
-/

namespace Atom

/-! ## Data model -/

/-- The `struct Electron` of the source. -/
structure Electron where
  shell : Int
  angle : ℚ
  angularVelocity : ℚ
  deriving DecidableEq, Repr

/-- The standard-library random source used by the constructor: `init` is
`std::mt19937 rng_(seed)`, and `angleDist g` is one evaluation of `angleDist(rng_)` on
engine state `g`, giving the drawn value and the advanced engine state. -/
structure Rng (σ : Type) where
  init : Nat → σ
  angleDist : σ → ℚ × σ

/-- The standard-library functions used by `printState` that are taken as parameters:
`std::cos`, `std::sin`, and `fmtDefault precision x`, the text `operator<<` produces for a
`double` while the stream's floatfield is still unset (no `std::fixed` yet). -/
structure StdLib where
  cos : ℚ → ℚ
  sin : ℚ → ℚ
  fmtDefault : Nat → ℚ → String

/-- The data members of `class AtomSimulation`, in declaration order. -/
structure AtomSimulation (σ : Type) where
  elementName_ : String
  protons_ : Int
  neutrons_ : Int
  shellOccupancy_ : List Int
  electrons_ : List Electron
  time_ : ℚ
  rng_ : σ

/-- The constant `kPi = 3.14159265358979323846` of the source. -/
def kPi : ℚ := 314159265358979323846 / 100000000000000000000

/-! ## `std::fmod` -/

/-- Truncation toward zero of a rational number. -/
def truncQ (q : ℚ) : Int := if 0 ≤ q then ⌊q⌋ else ⌈q⌉

/-- The C library function `fmod`: `x - n * y` where `n` is `x / y` with its fractional
part truncated. -/
def fmod (x y : ℚ) : ℚ := x - (truncQ (x / y) : ℚ) * y

/-! ## `AtomSimulation::step` -/

/-- The body of the range-for loop of `step`, for one electron. -/
def stepElectron (dt : ℚ) (e : Electron) : Electron :=
  let a := fmod (e.angle + e.angularVelocity * dt) (2 * kPi)
  { e with angle := if a < 0 then a + 2 * kPi else a }

/-- The method `void step(double dt)`. -/
def AtomSimulation.step {σ : Type} (s : AtomSimulation σ) (dt : ℚ) : AtomSimulation σ :=
  { s with electrons_ := s.electrons_.map (stepElectron dt), time_ := s.time_ + dt }

/-- A sequence of `step` calls, one per entry of `dts`, in order. -/
def AtomSimulation.steps {σ : Type} (s : AtomSimulation σ) (dts : List ℚ) : AtomSimulation σ :=
  dts.foldl AtomSimulation.step s

/-! ## Construction: `AtomSimulation::AtomSimulation` and `initializeElectrons` -/

/-- One iteration of the inner loop `for (int i = 0; i < count; ++i)` of
`initializeElectrons`: draws an angle and appends one electron.  The pair is
(`electrons_`, `rng_`). -/
def pushElectron {σ : Type} (R : Rng σ) (shell count : Int) (st : List Electron × σ) (i : Nat) :
    List Electron × σ :=
  let baseVelocity : ℚ := 3 / (shell : ℚ)
  let jitter : ℚ := ((i : ℚ) / ((max 1 count : Int) : ℚ)) * (2 / 10)
  let d := R.angleDist st.2
  (st.1 ++ [{ shell := shell, angle := d.1, angularVelocity := baseVelocity + jitter }], d.2)

/-- The inner loop of `initializeElectrons` for the shell with 0-based index `shellIndex`
and occupancy `count`: `i` runs over `0, ..., count - 1` (no iteration when `count ≤ 0`). -/
def fillShell {σ : Type} (R : Rng σ) (shellIndex : Nat) (count : Int) (st : List Electron × σ) :
    List Electron × σ :=
  (List.range count.toNat).foldl (pushElectron R ((shellIndex : Int) + 1) count) st

/-- The outer loop of `initializeElectrons`, from index `shellIndex` on; the list holds
`shellOccupancy_[shellIndex], shellOccupancy_[shellIndex + 1], ...`. -/
def shellLoop {σ : Type} (R : Rng σ) : Nat → List Int → List Electron × σ → List Electron × σ
  | _, [], st => st
  | shellIndex, count :: rest, st => shellLoop R (shellIndex + 1) rest (fillShell R shellIndex count st)

/-- The method `void initializeElectrons()`. -/
def AtomSimulation.initializeElectrons {σ : Type} (R : Rng σ) (s : AtomSimulation σ) :
    AtomSimulation σ :=
  let r := shellLoop R 0 s.shellOccupancy_ (s.electrons_, s.rng_)
  { s with electrons_ := r.1, rng_ := r.2 }

/-- The default value `42` of the constructor argument `seed`. -/
def defaultSeed : Nat := 42

/-- The constructor: member initialisers (with `electrons_` empty and `time_ = 0.0`), then
`initializeElectrons()`. -/
def AtomSimulation.construct {σ : Type} (R : Rng σ) (elementName : String) (protons neutrons : Int)
    (shellOccupancy : List Int) (seed : Nat) : AtomSimulation σ :=
  AtomSimulation.initializeElectrons R
    { elementName_ := elementName, protons_ := protons, neutrons_ := neutrons,
      shellOccupancy_ := shellOccupancy, electrons_ := [], time_ := 0, rng_ := R.init seed }

/-- The value of the local `jitter` in the inner loop of `initializeElectrons`, for loop
index `i` and occupancy `count`. -/
def jitter (i : Nat) (count : Int) : ℚ := ((i : ℚ) / ((max 1 count : Int) : ℚ)) * (2 / 10)

/-! ## `AtomSimulation::shellRadius` -/

/-- The static method `double shellRadius(int shell)`. -/
def shellRadius (shell : Int) : ℚ := (8 / 10) * (shell : ℚ)

/-! ## `std::cout` -/

/-- The part of `std::cout` the program reads or writes: the text written so far, whether
`std::fixed` is set, the precision, and the field width. -/
structure Ostream where
  text : String
  fixed : Bool
  precision : Nat
  width : Nat

/-- The stream `std::cout` at program start: nothing written, floatfield unset, precision 6,
width 0. -/
def Ostream.initial : Ostream := ⟨"", false, 6, 0⟩

/-- Padding of an output field to the field width, with the default fill character (space)
and the default adjustment (right). -/
def padLeft (width : Nat) (s : String) : String :=
  String.mk (List.replicate (width - s.length) ' ') ++ s

/-- The manipulator `std::fixed`. -/
def Ostream.setFixed (o : Ostream) : Ostream := { o with fixed := true }

/-- The manipulator `std::setprecision(n)`. -/
def Ostream.setprecision (o : Ostream) (n : Nat) : Ostream := { o with precision := n }

/-- The manipulator `std::setw(n)`. -/
def Ostream.setw (o : Ostream) (n : Nat) : Ostream := { o with width := n }

/-- Writing one already formatted field: it is padded to the width, and the width
is reset to `0`. -/
def Ostream.put (o : Ostream) (s : String) : Ostream :=
  { o with text := o.text ++ padLeft o.width s, width := 0 }

/-- Rounding of a non-negative rational to the nearest integer, ties to even. -/
def roundHalfEven (q : ℚ) : Nat :=
  let f := ⌊q⌋.toNat
  let r := q - (f : ℚ)
  if r < 1 / 2 then f else if 1 / 2 < r then f + 1 else if f % 2 = 0 then f else f + 1

/-- Fixed-point formatting of a number with `prec` digits after the decimal point (the
`%.*f` conversion used by `operator<<` when `std::fixed` is set): sign, integer digits, and
when `prec > 0` a point followed by exactly `prec` digits. -/
def fixedFmt (prec : Nat) (x : ℚ) : String :=
  let m := roundHalfEven (|x| * (10 : ℚ) ^ prec)
  let frac := toString (m % 10 ^ prec)
  (if x < 0 then "-" else "") ++ toString (m / 10 ^ prec) ++
    (if prec = 0 then "" else "." ++ String.mk (List.replicate (prec - frac.length) '0') ++ frac)

/-- The text of `operator<<(double)` under the current floatfield and precision. -/
def fmtDouble (S : StdLib) (o : Ostream) (x : ℚ) : String :=
  if o.fixed then fixedFmt o.precision x else S.fmtDefault o.precision x

/-- The output operation `operator<<(double)`. -/
def Ostream.putDouble (S : StdLib) (o : Ostream) (x : ℚ) : Ostream := o.put (fmtDouble S o x)

/-- The output operation `operator<<(int)`. -/
def Ostream.putInt (o : Ostream) (n : Int) : Ostream := o.put (toString n)

/-- The output operation `operator<<(size_t)`. -/
def Ostream.putNat (o : Ostream) (n : Nat) : Ostream := o.put (toString n)

/-! ## `AtomSimulation::printState` -/

/-- The body of the `for` loop of `printState` for the electron at index `i`. -/
def printElectron (S : StdLib) (o : Ostream) (i : Nat) (e : Electron) : Ostream :=
  let radius := shellRadius e.shell
  let x := radius * S.cos e.angle
  let y := radius * S.sin e.angle
  ((((((((((((((o.put "  e").putNat (i + 1)).put " [shell ").putInt e.shell).put "]").put
    " -> (").setw 7).setprecision 3).putDouble S x).put ", ").setw 7).setprecision
    3).putDouble S y).put ")\n")

/-- The `for` loop of `printState`, from index `i` on; the list holds `electrons_[i]`,
`electrons_[i + 1]`, ... -/
def printElectrons (S : StdLib) : Nat → List Electron → Ostream → Ostream
  | _, [], o => o
  | i, e :: rest, o => printElectrons S (i + 1) rest (printElectron S o i e)

/-- The method `void printState() const`, acting on `std::cout`.  The object is returned
together with the stream, as for every method. -/
def AtomSimulation.printState {σ : Type} (S : StdLib) (s : AtomSimulation σ) (o : Ostream) :
    AtomSimulation σ × Ostream :=
  let o1 := ((((o.put "Time: ").setFixed.setprecision 2).putDouble S s.time_).put " s\n")
  let o2 := ((((((((o1.put "Element: ").put s.elementName_).put " (p=").putInt s.protons_).put
    ", n=").putInt s.neutrons_).put ", e=").putNat s.electrons_.length).put ")\n"
  let o3 := o2.put "Electron positions (x, y):\n"
  let o4 := printElectrons S 0 s.electrons_ o3
  (s, o4.put "----------------------------------------\n")

/-! ## Calls of `printState` -/

/-- The statement `carbon.printState();` executed on the pair (`carbon`, `std::cout`). -/
def callPrintState {σ : Type} (S : StdLib) (q : AtomSimulation σ × Ostream) :
    AtomSimulation σ × Ostream :=
  q.1.printState S q.2

/-! ## Specification-side definitions -/

/-- Specification wording, "the truncated remainder of `x` by `y`": `x` minus `y` times the
quotient `x / y` rounded toward zero, the rounding written as sign times the floor of the
absolute value. -/
def truncatedRemainder (x y : ℚ) : ℚ :=
  x - y * ((SignType.sign (x / y) : Int) * ⌊|x / y|⌋ : Int)

/-- Specification wording, `normalize(x)`: the truncated remainder of `x` by `2 * pi`, with
`2 * pi` added when that remainder is negative. -/
def normalize (x : ℚ) : ℚ :=
  if truncatedRemainder x (2 * kPi) < 0 then truncatedRemainder x (2 * kPi) + 2 * kPi
  else truncatedRemainder x (2 * kPi)

/-- Specification wording: the (shell, angular velocity) pairs of the electrons of the
shell numbered `s` (1-based) with occupancy `count`, for `i = 0, ..., count - 1`. -/
def specShell (s : Nat) (count : Int) : List (Int × ℚ) :=
  (List.range count.toNat).map fun (i : Nat) => ((s : Int), 3 / (s : ℚ) + ((i : ℚ) / max 1 (count : ℚ)) * (1 / 5))

/-- Specification wording: the (shell, angular velocity) pairs of all electrons, shell by
shell in increasing shell number, the occupancy list being read from shell `s` on. -/
def specElectrons : Nat → List Int → List (Int × ℚ)
  | _, [] => []
  | s, count :: rest => specShell s count ++ specElectrons (s + 1) rest

/-- The text one `printState()` call on state `s` writes to a fresh `std::cout`: one
snapshot. -/
def snapshot {σ : Type} (S : StdLib) (s : AtomSimulation σ) : String :=
  (s.printState S Ostream.initial).2.text

/-- The (shell, angular velocity) pair of an electron. -/
def Electron.key (e : Electron) : Int × ℚ := (e.shell, e.angularVelocity)

/-- The stream `o` with the text `t` put in front of what it has written. -/
def Ostream.prepend (t : String) (o : Ostream) : Ostream := { o with text := t ++ o.text }

/-- The pair of the locals `x` and `y` computed in the loop of `printState` for one
electron: `radius * cos(angle)` and `radius * sin(angle)` with `radius = shellRadius(shell)`. -/
def position (S : StdLib) (e : Electron) : ℚ × ℚ :=
  (shellRadius e.shell * S.cos e.angle, shellRadius e.shell * S.sin e.angle)

/-- Specification wording: the line with the elapsed time, fixed to 2 decimal places, unit
"s". -/
def timeLine (t : ℚ) : String := "Time: " ++ fixedFmt 2 t ++ " s\n"

/-- Specification wording: the line with element name, proton count, neutron count and
electron count. -/
def elementLine (name : String) (protons neutrons : Int) (count : Nat) : String :=
  "Element: " ++ name ++ " (p=" ++ toString protons ++ ", n=" ++ toString neutrons ++ ", e=" ++
    toString count ++ ")\n"

/-- Specification wording: the header line introducing the positions. -/
def headerLine : String := "Electron positions (x, y):\n"

/-- Specification wording: the line of the electron numbered `k` (1-based), showing its
shell and its coordinates, each with 3 decimal places in a field of width 7. -/
def electronLine (S : StdLib) (k : Nat) (e : Electron) : String :=
  "  e" ++ toString k ++ " [shell " ++ toString e.shell ++ "] -> (" ++
    padLeft 7 (fixedFmt 3 (position S e).1) ++ ", " ++ padLeft 7 (fixedFmt 3 (position S e).2) ++
    ")\n"

/-- Specification wording: one line per electron, in collection order, the electrons
being numbered `k + 1, k + 2, ...`. -/
def electronLines (S : StdLib) : Nat → List Electron → List String
  | _, [] => []
  | k, e :: rest => electronLine S (k + 1) e :: electronLines S (k + 1) rest

/-- Specification wording: the separator line of dashes. -/
def separatorLine : String := "----------------------------------------\n"

/-- Specification wording: the lines of one snapshot, in order: time line, element line,
header line, one line per electron numbered from 1, separator line. -/
def snapshotLines {σ : Type} (S : StdLib) (s : AtomSimulation σ) : List String :=
  timeLine s.time_ :: elementLine s.elementName_ s.protons_ s.neutrons_ s.electrons_.length ::
    headerLine :: (electronLines S 0 s.electrons_ ++ [separatorLine])

/-- Modelled from the spec: the distribution object `angleDist(0.0, 2.0 * kPi)` is
standard-library code that the source only calls.  The spec says the initial angle is
"drawn uniformly from `[0, 2π)`"; `R.InRange` states that range for every draw, with the
program's `kPi` for `π`. -/
def Rng.InRange {σ : Type} (R : Rng σ) : Prop :=
  ∀ g : σ, 0 ≤ (R.angleDist g).1 ∧ (R.angleDist g).1 < 2 * kPi

/-- The number of newline characters in a text: the number of lines it ends. -/
def lineBreaks (s : String) : Nat := s.data.count '\n'

/-- A text that is exactly one line: a body without newline character, followed by one
newline character. -/
def IsLine (l : String) : Prop := ∃ body : String, l = body ++ "\n" ∧ lineBreaks body = 0

/-- A small library instance used to instantiate the `StdLib` parameter on concrete inputs:
the rational points `((1 - a²) / (1 + a²), 2a / (1 + a²))` of the unit circle stand in for
`(cos, sin)`; the default formatting is never reached and yields the empty text. -/
def circleLib : StdLib :=
  ⟨fun a => (1 - a * a) / (1 + a * a), fun a => 2 * a / (1 + a * a), fun _ _ => ""⟩

/-- A small deterministic generator used to instantiate the `Rng` parameter on concrete
inputs: the engine state is a counter, the draw is `(state % 25) / 4`. -/
def counterRng : Rng Nat := ⟨fun seed => seed, fun g => (((g % 25 : Nat) : ℚ) / 4, g + 1)⟩

/-! ## Double arithmetic: IEEE-754 binary64

The definitions above read `double` as exact rational arithmetic.  The definitions from
here to the end of the definitions embed the same source a second time with the arithmetic
of the machine: every `+`, `*`, `/` is rounded to the nearest binary64 number (ties to
even), results beyond the largest finite number become an infinity, and `std::fmod` of an
infinity is NaN.  The sign of zero is not tracked. -/

/-- A value of type `double`, up to the sign of zero: a finite number, an infinity with its
sign, or NaN. -/
inductive Dbl where
  | fin (q : ℚ)
  | inf (negative : Bool)
  | nan
  deriving DecidableEq, Repr

/-- The power of two `2 ^ p` for an integer exponent. -/
def pow2 (p : Int) : ℚ :=
  if 0 ≤ p then ((2 ^ p.toNat : Nat) : ℚ) else 1 / ((2 ^ (-p).toNat : Nat) : ℚ)

/-- Binary logarithm of a natural number, rounded down, by repeated halving; `fuel` bounds
the number of halvings (`fuel = n` suffices). -/
def log2Fuel : Nat → Nat → Nat
  | 0, _ => 0
  | fuel + 1, n => if n < 2 then 0 else log2Fuel fuel (n / 2) + 1

/-- The integer `e` with `2 ^ e ≤ q < 2 ^ (e + 1)`, for a positive rational `q`. -/
def ilog2 (q : ℚ) : Int :=
  let e0 : Int := (log2Fuel q.num.toNat q.num.toNat : Int) - (log2Fuel q.den q.den : Int)
  if pow2 e0 ≤ q then e0 else e0 - 1

/-- The exponent of the last place of the binary64 numbers around the positive magnitude `q`:
53 significant bits, and no finer than `2 ^ (-1074)` (subnormal range). -/
def ulpExp (q : ℚ) : Int := max (ilog2 q - 52) (-1074)

/-- The non-negative magnitude `q` rounded to the nearest multiple of its last place, ties to
the even multiple; the exponent is not bounded above here. -/
def roundMag (q : ℚ) : ℚ :=
  if q = 0 then 0 else (roundHalfEven (q / pow2 (ulpExp q)) : ℚ) * pow2 (ulpExp q)

/-- The largest finite binary64 number, `(2 ^ 53 - 1) * 2 ^ 971`. -/
def maxFinite : ℚ := (((2 ^ 53 - 1) * 2 ^ 971 : Nat) : ℚ)

/-- Rounding of an exact result to `double` (round to nearest, ties to even): the rounded
magnitude with its sign, or an infinity when the rounded magnitude exceeds `maxFinite`. -/
def roundD (q : ℚ) : Dbl :=
  if roundMag |q| ≤ maxFinite then Dbl.fin (if q < 0 then -roundMag |q| else roundMag |q|)
  else Dbl.inf (decide (q < 0))

/-- The conversion `static_cast<double>(n)` of an integer. -/
def Dbl.ofInt (n : Int) : Dbl := roundD (n : ℚ)

/-- The sum `x + y` of two doubles. -/
def Dbl.add : Dbl → Dbl → Dbl
  | Dbl.fin a, Dbl.fin b => roundD (a + b)
  | Dbl.fin _, Dbl.inf s => Dbl.inf s
  | Dbl.inf s, Dbl.fin _ => Dbl.inf s
  | Dbl.inf s, Dbl.inf t => if s = t then Dbl.inf s else Dbl.nan
  | _, _ => Dbl.nan

/-- The product `x * y` of two doubles. -/
def Dbl.mul : Dbl → Dbl → Dbl
  | Dbl.fin a, Dbl.fin b => roundD (a * b)
  | Dbl.fin a, Dbl.inf s => if a = 0 then Dbl.nan else Dbl.inf (xor (decide (a < 0)) s)
  | Dbl.inf s, Dbl.fin b => if b = 0 then Dbl.nan else Dbl.inf (xor s (decide (b < 0)))
  | Dbl.inf s, Dbl.inf t => Dbl.inf (xor s t)
  | _, _ => Dbl.nan

/-- The quotient `x / y` of two doubles; a zero divisor is taken as `+0`. -/
def Dbl.div : Dbl → Dbl → Dbl
  | Dbl.fin a, Dbl.fin b =>
    if b = 0 then (if a = 0 then Dbl.nan else Dbl.inf (decide (a < 0))) else roundD (a / b)
  | Dbl.fin _, Dbl.inf _ => Dbl.fin 0
  | Dbl.inf s, Dbl.fin b => Dbl.inf (xor s (decide (b < 0)))
  | _, _ => Dbl.nan

/-- The C library function `fmod` on doubles: exact for finite `x` and finite non-zero `y`,
`x` itself for finite `x` and infinite `y`, NaN otherwise. -/
def Dbl.fmod : Dbl → Dbl → Dbl
  | Dbl.fin a, Dbl.fin b => if b = 0 then Dbl.nan else Dbl.fin (Atom.fmod a b)
  | Dbl.fin a, Dbl.inf _ => Dbl.fin a
  | _, _ => Dbl.nan

/-- The comparison `x < y` of two doubles; false when either is NaN. -/
def Dbl.lt : Dbl → Dbl → Bool
  | Dbl.fin a, Dbl.fin b => decide (a < b)
  | Dbl.fin _, Dbl.inf s => !s
  | Dbl.inf s, Dbl.fin _ => s
  | Dbl.inf s, Dbl.inf t => s && !t
  | _, _ => false

/-- The constant `kPi` as the `double` it is: the literal rounded to binary64. -/
def kPiD : Dbl := roundD kPi

/-- The expression `2.0 * kPi`. -/
def twoPiD : Dbl := Dbl.mul (Dbl.fin 2) kPiD

/-- The value of `2.0 * kPi`, the double `6.283185307179586...`, as a rational. -/
def twoPiQ : ℚ := 884279719003555 / 140737488355328

/-- The `struct Electron` of the source with `double` fields. -/
structure ElectronD where
  shell : Int
  angle : Dbl
  angularVelocity : Dbl
  deriving DecidableEq, Repr

/-- The data members of `class AtomSimulation`, with `double` fields. -/
structure AtomSimulationD (σ : Type) where
  elementName_ : String
  protons_ : Int
  neutrons_ : Int
  shellOccupancy_ : List Int
  electrons_ : List ElectronD
  time_ : Dbl
  rng_ : σ

/-- The body of the range-for loop of `step` in double arithmetic:
`angle = fmod(angle + angularVelocity * dt, 2.0 * kPi); if (angle < 0.0) angle += 2.0 * kPi;`. -/
def stepElectronD (dt : Dbl) (e : ElectronD) : ElectronD :=
  let a := Dbl.fmod (Dbl.add e.angle (Dbl.mul e.angularVelocity dt)) twoPiD
  { e with angle := if Dbl.lt a (Dbl.fin 0) then Dbl.add a twoPiD else a }

/-- The method `void step(double dt)` in double arithmetic. -/
def AtomSimulationD.step {σ : Type} (s : AtomSimulationD σ) (dt : Dbl) : AtomSimulationD σ :=
  { s with electrons_ := s.electrons_.map (stepElectronD dt), time_ := Dbl.add s.time_ dt }

/-- A sequence of `step` calls in double arithmetic, one per entry of `dts`, in order. -/
def AtomSimulationD.steps {σ : Type} (s : AtomSimulationD σ) (dts : List Dbl) :
    AtomSimulationD σ :=
  dts.foldl AtomSimulationD.step s

/-- One iteration of the inner loop of `initializeElectrons` in double arithmetic; the draw
of the distribution is a finite double. -/
def pushElectronD {σ : Type} (R : Rng σ) (shell count : Int) (st : List ElectronD × σ)
    (i : Nat) : List ElectronD × σ :=
  let baseVelocity : Dbl := Dbl.div (Dbl.fin 3) (Dbl.ofInt shell)
  let jitter : Dbl :=
    Dbl.mul (Dbl.div (Dbl.ofInt (i : Int)) (Dbl.ofInt (max 1 count))) (roundD (2 / 10))
  let d := R.angleDist st.2
  (st.1 ++ [{ shell := shell, angle := Dbl.fin d.1,
              angularVelocity := Dbl.add baseVelocity jitter }], d.2)

/-- The inner loop of `initializeElectrons` in double arithmetic. -/
def fillShellD {σ : Type} (R : Rng σ) (shellIndex : Nat) (count : Int)
    (st : List ElectronD × σ) : List ElectronD × σ :=
  (List.range count.toNat).foldl (pushElectronD R ((shellIndex : Int) + 1) count) st

/-- The outer loop of `initializeElectrons` in double arithmetic. -/
def shellLoopD {σ : Type} (R : Rng σ) :
    Nat → List Int → List ElectronD × σ → List ElectronD × σ
  | _, [], st => st
  | shellIndex, count :: rest, st =>
    shellLoopD R (shellIndex + 1) rest (fillShellD R shellIndex count st)

/-- The constructor in double arithmetic: member initialisers (`electrons_` empty,
`time_ = 0.0`), then `initializeElectrons()`. -/
def AtomSimulationD.construct {σ : Type} (R : Rng σ) (elementName : String)
    (protons neutrons : Int) (shellOccupancy : List Int) (seed : Nat) : AtomSimulationD σ :=
  let r := shellLoopD R 0 shellOccupancy ([], R.init seed)
  { elementName_ := elementName, protons_ := protons, neutrons_ := neutrons,
    shellOccupancy_ := shellOccupancy, electrons_ := r.1, time_ := Dbl.fin 0, rng_ := r.2 }

/-- The static method `shellRadius` in double arithmetic: `0.8 * static_cast<double>(shell)`. -/
def shellRadiusD (shell : Int) : Dbl := Dbl.mul (roundD (8 / 10)) (Dbl.ofInt shell)

/-- The library function `std::cos` on doubles: the library value on a finite argument, NaN
on an infinity or NaN. -/
def cosD (S : StdLib) : Dbl → Dbl
  | Dbl.fin a => Dbl.fin (S.cos a)
  | _ => Dbl.nan

/-- The library function `std::sin` on doubles: the library value on a finite argument, NaN
on an infinity or NaN. -/
def sinD (S : StdLib) : Dbl → Dbl
  | Dbl.fin a => Dbl.fin (S.sin a)
  | _ => Dbl.nan

/-- The text of `operator<<(double)` for a double; `N` is the library's text for an infinity
or NaN. -/
def fmtDoubleD (S : StdLib) (N : Dbl → String) (o : Ostream) : Dbl → String
  | Dbl.fin q => fmtDouble S o q
  | x => N x

/-- The output operation `operator<<(double)` for a double. -/
def Ostream.putDoubleD (S : StdLib) (N : Dbl → String) (o : Ostream) (x : Dbl) : Ostream :=
  o.put (fmtDoubleD S N o x)

/-- The body of the `for` loop of `printState` in double arithmetic. -/
def printElectronD (S : StdLib) (N : Dbl → String) (o : Ostream) (i : Nat) (e : ElectronD) :
    Ostream :=
  let radius := shellRadiusD e.shell
  let x := Dbl.mul radius (cosD S e.angle)
  let y := Dbl.mul radius (sinD S e.angle)
  ((((((((((((((o.put "  e").putNat (i + 1)).put " [shell ").putInt e.shell).put "]").put
    " -> (").setw 7).setprecision 3).putDoubleD S N x).put ", ").setw 7).setprecision
    3).putDoubleD S N y).put ")\n")

/-- The `for` loop of `printState` in double arithmetic, from index `i` on. -/
def printElectronsD (S : StdLib) (N : Dbl → String) : Nat → List ElectronD → Ostream → Ostream
  | _, [], o => o
  | i, e :: rest, o => printElectronsD S N (i + 1) rest (printElectronD S N o i e)

/-- The method `void printState() const` on a state with `double` fields. -/
def AtomSimulationD.printState {σ : Type} (S : StdLib) (N : Dbl → String)
    (s : AtomSimulationD σ) (o : Ostream) : AtomSimulationD σ × Ostream :=
  let o1 := ((((o.put "Time: ").setFixed.setprecision 2).putDoubleD S N s.time_).put " s\n")
  let o2 := ((((((((o1.put "Element: ").put s.elementName_).put " (p=").putInt s.protons_).put
    ", n=").putInt s.neutrons_).put ", e=").putNat s.electrons_.length).put ")\n"
  let o3 := o2.put "Electron positions (x, y):\n"
  let o4 := printElectronsD S N 0 s.electrons_ o3
  (s, o4.put "----------------------------------------\n")

/-- The loop `for (int i = 0; i < steps; ++i)` of `main` with `n` iterations left:
`carbon.printState(); carbon.step(dt);`.  The pair is (`carbon`, `std::cout`). -/
def mainLoopD {σ : Type} (S : StdLib) (N : Dbl → String) (dt : Dbl) :
    Nat → AtomSimulationD σ × Ostream → AtomSimulationD σ × Ostream
  | 0, p => p
  | n + 1, p =>
    mainLoopD S N dt n (((p.1.printState S N p.2).1.step dt), (p.1.printState S N p.2).2)

/-- The function `main` in double arithmetic: exit status, final `carbon`, final
`std::cout`.  The literal `0.15` is the double nearest to `15 / 100`. -/
def mainD {σ : Type} (R : Rng σ) (S : StdLib) (N : Dbl → String) :
    Int × AtomSimulationD σ × Ostream :=
  let carbon := AtomSimulationD.construct R "Carbon" 6 6 [2, 4] defaultSeed
  let dt : Dbl := roundD (15 / 100)
  let steps : Nat := 12
  (0, mainLoopD S N dt steps (carbon, Ostream.initial))

/-- The text one `printState()` call on the state `s` writes to a fresh `std::cout`. -/
def snapshotD {σ : Type} (S : StdLib) (N : Dbl → String) (s : AtomSimulationD σ) : String :=
  (s.printState S N Ostream.initial).2.text

/-- The value of `time_` after `n` calls of `step(dt)` on a freshly constructed state: `n`
successive double additions of `dt`, starting from `0.0`. -/
def timeAfterD (dt : Dbl) : Nat → Dbl
  | 0 => Dbl.fin 0
  | n + 1 => Dbl.add (timeAfterD dt n) dt

/-- Whether a double is finite and within `tol` of the rational `q`. -/
def Dbl.within (x : Dbl) (q tol : ℚ) : Bool :=
  match x with
  | Dbl.fin t => decide (|t - q| ≤ tol)
  | _ => false

/-- The text of a finite double in fixed notation with `prec` decimals; `none` for an
infinity or NaN. -/
def fixedTextD (prec : Nat) : Dbl → Option String
  | Dbl.fin t => some (fixedFmt prec t)
  | _ => none

/-- Library texts for non-finite doubles used on concrete inputs: `inf`, `-inf`, `nan`. -/
def sampleNonFinite : Dbl → String
  | Dbl.inf false => "inf"
  | Dbl.inf true => "-inf"
  | _ => "nan"

/-- The pair of the locals `x` and `y` computed in the loop of `printState` for one
electron, in double arithmetic: `radius * std::cos(angle)` and `radius * std::sin(angle)` with
`radius = shellRadius(shell)`. -/
def positionD (S : StdLib) (e : ElectronD) : Dbl × Dbl :=
  (Dbl.mul (shellRadiusD e.shell) (cosD S e.angle),
    Dbl.mul (shellRadiusD e.shell) (sinD S e.angle))

/-- The text of a double under `std::fixed` with precision `prec`; `N` is the library's text
for an infinity or NaN. -/
def fixedD (N : Dbl → String) (prec : Nat) : Dbl → String
  | Dbl.fin q => fixedFmt prec q
  | x => N x

/-- The line `printState` writes for the electron numbered `k` (1-based): its shell and its
coordinates, each with 3 decimal places in a field of width 7. -/
def electronLineD (S : StdLib) (N : Dbl → String) (k : Nat) (e : ElectronD) : String :=
  "  e" ++ toString k ++ " [shell " ++ toString e.shell ++ "] -> (" ++
    padLeft 7 (fixedD N 3 (positionD S e).1) ++ ", " ++
    padLeft 7 (fixedD N 3 (positionD S e).2) ++ ")\n"

/-- Whether the position `(x, y)` of the electron lies on the circle of radius
`r = shellRadius(shell)` exactly: all three are finite and `x² + y² = r²` as numbers. -/
def onCircleExact (S : StdLib) (e : ElectronD) : Bool :=
  match positionD S e, shellRadiusD e.shell with
  | (Dbl.fin x, Dbl.fin y), Dbl.fin r => decide (x * x + y * y = r * r)
  | _, _ => false

/-- Whether the comparison `x * x + y * y == r * r` holds when both sides are evaluated in
double arithmetic, for the position `(x, y)` of the electron and `r = shellRadius(shell)`. -/
def onCircleD (S : StdLib) (e : ElectronD) : Bool :=
  match Dbl.add (Dbl.mul (positionD S e).1 (positionD S e).1)
      (Dbl.mul (positionD S e).2 (positionD S e).2),
    Dbl.mul (shellRadiusD e.shell) (shellRadiusD e.shell) with
  | Dbl.fin l, Dbl.fin r => decide (l = r)
  | Dbl.inf s, Dbl.inf t => decide (s = t)
  | _, _ => false

/-- Library results at the angle `3.0` used to instantiate the `StdLib` parameter on concrete
inputs: the cosine is the double `i` last places above `-0.9899924966004454`, the sine the
double `j` last places above `0.1411200080598672`; for `i = j = 0` these are the binary64
numbers nearest to `cos 3` and `sin 3`.  The default formatting is never reached. -/
def trigNear3 (i j : Int) : StdLib :=
  ⟨fun _ => (-4458529838789353 + (i : ℚ)) / 4503599627370496,
   fun _ => (5084384125703515 + (j : ℚ)) / 36028797018963968, fun _ _ => ""⟩

/-! ## Facts about `fmod` -/

theorem kPi_pos : 0 < kPi := by
  unfold kPi; norm_num

theorem fmod_nonneg_of_div_nonneg {x y : ℚ} (hy : 0 < y) (hq : 0 ≤ x / y) :
    0 ≤ fmod x y ∧ fmod x y < y := by
  have h1 : ((⌊x / y⌋ : Int) : ℚ) ≤ x / y := Int.floor_le _
  have h2 : x / y < (⌊x / y⌋ : Int) + 1 := Int.lt_floor_add_one _
  have hx : x = x / y * y := by field_simp
  unfold fmod truncQ
  rw [if_pos hq]
  constructor
  · nlinarith
  · nlinarith

theorem fmod_nonpos_of_div_neg {x y : ℚ} (hy : 0 < y) (hq : ¬ 0 ≤ x / y) :
    -y < fmod x y ∧ fmod x y ≤ 0 := by
  have h1 : x / y ≤ ((⌈x / y⌉ : Int) : ℚ) := Int.le_ceil _
  have h2 : ((⌈x / y⌉ : Int) : ℚ) < x / y + 1 := Int.ceil_lt_add_one _
  have hx : x = x / y * y := by field_simp
  unfold fmod truncQ
  rw [if_neg hq]
  constructor
  · nlinarith
  · nlinarith

theorem fmod_bounds {x y : ℚ} (hy : 0 < y) : -y < fmod x y ∧ fmod x y < y := by
  by_cases hq : 0 ≤ x / y
  · have h := fmod_nonneg_of_div_nonneg hy hq
    exact ⟨by linarith [h.1], h.2⟩
  · have h := fmod_nonpos_of_div_neg hy hq
    exact ⟨h.1, by linarith [h.2]⟩

theorem stepElectron_angle_range (dt : ℚ) (e : Electron) :
    0 ≤ (stepElectron dt e).angle ∧ (stepElectron dt e).angle < 2 * kPi := by
  have hy : (0 : ℚ) < 2 * kPi := by linarith [kPi_pos]
  have hb := fmod_bounds (x := e.angle + e.angularVelocity * dt) hy
  simp only [stepElectron]
  split_ifs with h
  · exact ⟨by linarith [hb.1], by linarith⟩
  · exact ⟨not_lt.mp h, hb.2⟩

theorem kPi_lt_pi : ((kPi : ℚ) : ℝ) < Real.pi := by
  have h : ((kPi : ℚ) : ℝ) = 3.14159265358979323846 := by
    unfold kPi; push_cast; norm_num
  rw [h]
  exact Real.pi_gt_d20

/-! ## C2: `step` computes `normalize` -/

theorem truncQ_eq_sign_mul_floor_abs (q : ℚ) :
    truncQ q = (SignType.sign q : Int) * ⌊|q|⌋ := by
  unfold truncQ
  rcases lt_trichotomy q 0 with h | h | h
  · rw [if_neg (not_le.mpr h), sign_neg h, abs_of_neg h, Int.floor_neg]
    simp
  · subst h
    simp
  · rw [if_pos h.le, sign_pos h, abs_of_pos h]
    simp

theorem fmod_eq_truncatedRemainder (x y : ℚ) : fmod x y = truncatedRemainder x y := by
  unfold fmod truncatedRemainder
  rw [truncQ_eq_sign_mul_floor_abs, mul_comm]

theorem stepElectron_angle (dt : ℚ) (e : Electron) :
    (stepElectron dt e).angle = normalize (e.angle + e.angularVelocity * dt) := by
  simp only [stepElectron, normalize, fmod_eq_truncatedRemainder]

theorem pushElectron_fold_key {σ : Type} (R : Rng σ) (shell count : Int) (n : Nat)
    (st : List Electron × σ) :
    ((List.range n).foldl (pushElectron R shell count) st).1.map Electron.key =
      st.1.map Electron.key ++
        (List.range n).map fun (i : Nat) =>
          (shell, 3 / (shell : ℚ) + ((i : ℚ) / ((max 1 count : Int) : ℚ)) * (2 / 10)) := by
  induction n with
  | zero => simp
  | succ n ih =>
    rw [List.range_succ, List.foldl_append, List.map_append, ← List.append_assoc, ← ih]
    simp [pushElectron, Electron.key]

theorem fillShell_key {σ : Type} (R : Rng σ) (shellIndex : Nat) (count : Int)
    (st : List Electron × σ) :
    (fillShell R shellIndex count st).1.map Electron.key =
      st.1.map Electron.key ++ specShell (shellIndex + 1) count := by
  unfold fillShell specShell
  rw [pushElectron_fold_key]
  congr 1
  apply List.map_congr_left
  intro i _
  have h1 : ((max 1 count : Int) : ℚ) = max 1 (count : ℚ) := by
    rw [Int.cast_max]; simp
  rw [h1]
  push_cast
  norm_num

theorem shellLoop_key {σ : Type} (R : Rng σ) (occ : List Int) :
    ∀ (shellIndex : Nat) (st : List Electron × σ),
      (shellLoop R shellIndex occ st).1.map Electron.key =
        st.1.map Electron.key ++ specElectrons (shellIndex + 1) occ := by
  induction occ with
  | nil => intro k st; simp [shellLoop, specElectrons]
  | cons c rest ih =>
    intro k st
    simp only [shellLoop, specElectrons]
    rw [ih, fillShell_key, List.append_assoc]

theorem construct_key {σ : Type} (R : Rng σ) (elementName : String) (protons neutrons : Int)
    (occ : List Int) (seed : Nat) :
    (AtomSimulation.construct R elementName protons neutrons occ seed).electrons_.map Electron.key =
      specElectrons 1 occ := by
  simp only [AtomSimulation.construct, AtomSimulation.initializeElectrons]
  rw [shellLoop_key]
  simp

theorem specElectrons_length (occ : List Int) :
    ∀ s : Nat, (specElectrons s occ).length = (occ.map Int.toNat).sum := by
  induction occ with
  | nil => intro s; simp [specElectrons]
  | cons c rest ih => intro s; simp [specElectrons, specShell, ih]

theorem sum_toNat_of_nonneg (occ : List Int) (h : ∀ c ∈ occ, 0 ≤ c) :
    (((occ.map Int.toNat).sum : Nat) : Int) = occ.sum := by
  induction occ with
  | nil => simp
  | cons c rest ih =>
    have hc : 0 ≤ c := h c (List.mem_cons_self _ _)
    have hr : ∀ d ∈ rest, 0 ≤ d := fun d hd => h d (List.mem_cons_of_mem _ hd)
    simp only [List.map_cons, List.sum_cons, Nat.cast_add, ih hr, Int.toNat_of_nonneg hc]

/-! ## Frame of `step` -/

theorem stepElectron_key (dt : ℚ) (e : Electron) : (stepElectron dt e).key = e.key := rfl

theorem step_key {σ : Type} (s : AtomSimulation σ) (dt : ℚ) :
    (s.step dt).electrons_.map Electron.key = s.electrons_.map Electron.key := by
  simp only [AtomSimulation.step, List.map_map]
  apply List.map_congr_left
  intro e _
  exact stepElectron_key dt e

theorem steps_key {σ : Type} (dts : List ℚ) :
    ∀ s : AtomSimulation σ,
      (s.steps dts).electrons_.map Electron.key = s.electrons_.map Electron.key := by
  induction dts with
  | nil => intro s; rfl
  | cons dt rest ih =>
    intro s
    have h := ih (s.step dt)
    rw [step_key] at h
    exact h

theorem steps_shellOccupancy {σ : Type} (dts : List ℚ) :
    ∀ s : AtomSimulation σ, (s.steps dts).shellOccupancy_ = s.shellOccupancy_ := by
  induction dts with
  | nil => intro s; rfl
  | cons dt rest ih => intro s; exact ih (s.step dt)

theorem construct_shellOccupancy {σ : Type} (R : Rng σ) (elementName : String)
    (protons neutrons : Int) (occ : List Int) (seed : Nat) :
    (AtomSimulation.construct R elementName protons neutrons occ seed).shellOccupancy_ = occ := rfl

/-! ## C3: the number of electrons -/

/-- C3. For every occupancy sequence whose counts are all non-negative, the state built by
the constructor, and every state reached from it by any sequence of `step` calls, has
`electrons_.size()` equal to the sum of its `shellOccupancy_`. -/
theorem electrons_length_eq_sum {σ : Type} (R : Rng σ) (elementName : String)
    (protons neutrons : Int) (occ : List Int) (seed : Nat) (dts : List ℚ)
    (hocc : ∀ c ∈ occ, 0 ≤ c) :
    ((((AtomSimulation.construct R elementName protons neutrons occ seed).steps dts).electrons_.length
        : Nat) : Int) =
      ((AtomSimulation.construct R elementName protons neutrons occ seed).steps dts).shellOccupancy_.sum := by
  rw [steps_shellOccupancy, construct_shellOccupancy, ← sum_toNat_of_nonneg occ hocc,
    ← specElectrons_length occ 1, ← construct_key R elementName protons neutrons occ seed,
    ← steps_key dts, List.length_map]

/-- C3 at a concrete input: occupancy `[2, 4]`, two steps; six electrons. -/
theorem electrons_length_eq_sum_witness :
    (∀ c ∈ ([2, 4] : List Int), 0 ≤ c) ∧
      ((((AtomSimulation.construct counterRng "Carbon" 6 6 [2, 4] 42).steps
          [15 / 100, 15 / 100]).electrons_.length : Nat) : Int) = 6 :=
  ⟨by decide,
   electrons_length_eq_sum counterRng "Carbon" 6 6 [2, 4] 42 [15 / 100, 15 / 100] (by decide)⟩

/-! ## The constructor's electron list -/

theorem construct_electrons_eq {σ : Type} (R : Rng σ) (elementName : String)
    (protons neutrons : Int) (occ : List Int) (seed : Nat) :
    (AtomSimulation.construct R elementName protons neutrons occ seed).electrons_ =
      (shellLoop R 0 occ ([], R.init seed)).1 := rfl

/-! ## C5: shells and angular velocities of the constructed electrons -/

/-- C6. For every state and every `dt`, `step(dt)` keeps the number and order of the
electrons with each electron's shell and angular velocity, and keeps the element name, the
proton count, the neutron count, the shell occupancy and the random engine. -/
theorem step_frame {σ : Type} (s : AtomSimulation σ) (dt : ℚ) :
    (s.step dt).electrons_.length = s.electrons_.length ∧
      (s.step dt).electrons_.map Electron.shell = s.electrons_.map Electron.shell ∧
      (s.step dt).electrons_.map Electron.angularVelocity =
        s.electrons_.map Electron.angularVelocity ∧
      (s.step dt).elementName_ = s.elementName_ ∧ (s.step dt).protons_ = s.protons_ ∧
      (s.step dt).neutrons_ = s.neutrons_ ∧ (s.step dt).shellOccupancy_ = s.shellOccupancy_ ∧
      (s.step dt).rng_ = s.rng_ := by
  refine ⟨?_, ?_, ?_, rfl, rfl, rfl, rfl, rfl⟩
  · simp [AtomSimulation.step]
  · simp only [AtomSimulation.step, List.map_map]
    apply List.map_congr_left
    intro e _
    rfl
  · simp only [AtomSimulation.step, List.map_map]
    apply List.map_congr_left
    intro e _
    rfl

/-! ## C7: the carbon scenario -/

theorem normalize_eq_stepAngle (x : ℚ) :
    normalize x = if fmod x (2 * kPi) < 0 then fmod x (2 * kPi) + 2 * kPi else fmod x (2 * kPi) := by
  simp only [normalize, fmod_eq_truncatedRemainder]

theorem normalize_range (x : ℚ) : 0 ≤ normalize x ∧ normalize x < 2 * kPi := by
  have h := stepElectron_angle_range 0 ⟨0, x, 0⟩
  rw [stepElectron_angle] at h
  simpa using h

theorem normalize_mod (x : ℚ) : ∃ k : Int, normalize x = x - (k : ℚ) * (2 * kPi) := by
  rw [normalize_eq_stepAngle]
  split_ifs with h
  · refine ⟨truncQ (x / (2 * kPi)) - 1, ?_⟩
    unfold fmod
    push_cast
    ring
  · exact ⟨truncQ (x / (2 * kPi)), rfl⟩

theorem stepElectron_eq (dt : ℚ) (e : Electron) :
    stepElectron dt e =
      ⟨e.shell, normalize (e.angle + e.angularVelocity * dt), e.angularVelocity⟩ := by
  rw [← stepElectron_angle]
  rfl

theorem put_prepend (t s : String) (o : Ostream) :
    (Ostream.prepend t o).put s = Ostream.prepend t (o.put s) := by
  simp [Ostream.put, Ostream.prepend, String.append_assoc]

theorem putInt_prepend (t : String) (n : Int) (o : Ostream) :
    (Ostream.prepend t o).putInt n = Ostream.prepend t (o.putInt n) :=
  put_prepend t _ o

theorem putNat_prepend (t : String) (n : Nat) (o : Ostream) :
    (Ostream.prepend t o).putNat n = Ostream.prepend t (o.putNat n) :=
  put_prepend t _ o

theorem putDouble_prepend (S : StdLib) (t : String) (x : ℚ) (o : Ostream) :
    (Ostream.prepend t o).putDouble S x = Ostream.prepend t (o.putDouble S x) :=
  put_prepend t _ o

theorem setw_prepend (t : String) (n : Nat) (o : Ostream) :
    (Ostream.prepend t o).setw n = Ostream.prepend t (o.setw n) := rfl

theorem setprecision_prepend (t : String) (n : Nat) (o : Ostream) :
    (Ostream.prepend t o).setprecision n = Ostream.prepend t (o.setprecision n) := rfl

theorem setFixed_prepend (t : String) (o : Ostream) :
    (Ostream.prepend t o).setFixed = Ostream.prepend t o.setFixed := rfl

theorem printElectron_prepend (S : StdLib) (t : String) (o : Ostream) (i : Nat) (e : Electron) :
    printElectron S (Ostream.prepend t o) i e = Ostream.prepend t (printElectron S o i e) := by
  simp only [printElectron, put_prepend, putInt_prepend, putNat_prepend, putDouble_prepend,
    setw_prepend, setprecision_prepend]

theorem printElectrons_prepend (S : StdLib) (t : String) (es : List Electron) :
    ∀ (i : Nat) (o : Ostream),
      printElectrons S i es (Ostream.prepend t o) = Ostream.prepend t (printElectrons S i es o) := by
  induction es with
  | nil => intro i o; rfl
  | cons e rest ih =>
    intro i o
    simp only [printElectrons, printElectron_prepend, ih]

theorem printState_prepend {σ : Type} (S : StdLib) (s : AtomSimulation σ) (t : String)
    (o : Ostream) :
    (s.printState S (Ostream.prepend t o)).2 = Ostream.prepend t (s.printState S o).2 := by
  simp only [AtomSimulation.printState, put_prepend, putInt_prepend, putNat_prepend,
    putDouble_prepend, setprecision_prepend, setFixed_prepend, printElectrons_prepend]

theorem printState_flags {σ : Type} (S : StdLib) (s : AtomSimulation σ) (t : String) (f : Bool)
    (p : Nat) :
    (s.printState S ⟨t, f, p, 0⟩).2 = (s.printState S ⟨t, false, 6, 0⟩).2 := rfl

theorem printElectrons_width (S : StdLib) (es : List Electron) :
    ∀ (i : Nat) (o : Ostream), o.width = 0 → (printElectrons S i es o).width = 0 := by
  induction es with
  | nil => intro i o h; exact h
  | cons e rest ih => intro i o _; exact ih (i + 1) _ rfl

theorem printState_width {σ : Type} (S : StdLib) (s : AtomSimulation σ) (o : Ostream) :
    (s.printState S o).2.width = 0 := rfl

theorem printState_text {σ : Type} (S : StdLib) (s : AtomSimulation σ) (t : String) (f : Bool)
    (p : Nat) :
    (s.printState S ⟨t, f, p, 0⟩).2.text = t ++ snapshot S s := by
  have h := printState_prepend S s t Ostream.initial
  have h0 : Ostream.prepend t Ostream.initial = ⟨t, false, 6, 0⟩ := by
    simp [Ostream.prepend, Ostream.initial]
  rw [h0] at h
  rw [printState_flags, h]
  rfl

theorem printState_text_of_width {σ : Type} (S : StdLib) (s : AtomSimulation σ) (o : Ostream)
    (h : o.width = 0) : (s.printState S o).2.text = o.text ++ snapshot S s := by
  obtain ⟨t, f, p, w⟩ := o
  simp only at h
  subst h
  exact printState_text S s t f p

/-! ## Facts about text and step sequences -/

theorem foldl_append_string (l : List String) :
    ∀ acc : String, l.foldl (fun r s => r ++ s) acc = acc ++ l.foldl (fun r s => r ++ s) "" := by
  induction l with
  | nil => intro acc; simp
  | cons a rest ih =>
    intro acc
    simp only [List.foldl_cons]
    rw [ih (acc ++ a), ih ("" ++ a), String.empty_append, String.append_assoc]

theorem string_join_cons (a : String) (l : List String) :
    String.join (a :: l) = a ++ String.join l := by
  simp only [String.join, List.foldl_cons]
  rw [foldl_append_string, String.empty_append]

theorem steps_cons {σ : Type} (s : AtomSimulation σ) (dt : ℚ) (dts : List ℚ) :
    s.steps (dt :: dts) = (s.step dt).steps dts := rfl

/-! ## C10: `printState` is read-only and repeatable -/

theorem callPrintState_iterate {σ : Type} (S : StdLib) (s : AtomSimulation σ) :
    ∀ (n : Nat) (o : Ostream), o.width = 0 →
      ((callPrintState S)^[n] (s, o)).1 = s ∧
        ((callPrintState S)^[n] (s, o)).2.text =
          o.text ++ String.join (List.replicate n (snapshot S s)) := by
  intro n
  induction n with
  | zero => intro o _; simp [String.join]
  | succ n ih =>
    intro o ho
    have h := ih (s.printState S o).2 (printState_width S s o)
    have hcall : callPrintState S (s, o) = (s, (s.printState S o).2) := rfl
    rw [Function.iterate_succ_apply, hcall]
    refine ⟨h.1, ?_⟩
    rw [h.2, printState_text_of_width S s o ho, List.replicate_succ, string_join_cons,
      String.append_assoc]

/-- C10. `printState` leaves the simulation state as it was, whatever the stream; and
on `std::cout` with field width `0` (as at every call in this program) and any text,
floatfield and precision, the text it appends is `snapshot S s`, which depends on the
simulation state only: `n` calls in a row, with no `step` between them, leave the state
unchanged and append `n` identical copies of that snapshot. -/
theorem printState_pure {σ : Type} (S : StdLib) (s : AtomSimulation σ) (o : Ostream)
    (t : String) (f : Bool) (p n : Nat) :
    (s.printState S o).1 = s ∧
      (s.printState S ⟨t, f, p, 0⟩).2.text = t ++ snapshot S s ∧
      ((callPrintState S)^[n] (s, ⟨t, f, p, 0⟩)).1 = s ∧
      ((callPrintState S)^[n] (s, ⟨t, f, p, 0⟩)).2.text =
        t ++ String.join (List.replicate n (snapshot S s)) :=
  ⟨rfl, printState_text S s t f p, (callPrintState_iterate S s n ⟨t, f, p, 0⟩ rfl).1,
    (callPrintState_iterate S s n ⟨t, f, p, 0⟩ rfl).2⟩

/-! ## The text of one snapshot -/

theorem padLeft_zero (s : String) : padLeft 0 s = s := by
  simp only [padLeft, Nat.zero_sub, List.replicate_zero]
  exact String.empty_append s

theorem printElectron_text (S : StdLib) (t : String) (p i : Nat) (e : Electron) :
    printElectron S ⟨t, true, p, 0⟩ i e = ⟨t ++ electronLine S (i + 1) e, true, 3, 0⟩ := by
  have h : "] -> (" = "]" ++ " -> (" := by decide
  simp only [printElectron, electronLine, position, Ostream.put, Ostream.putNat, Ostream.putInt,
    Ostream.putDouble, Ostream.setw, Ostream.setprecision, fmtDouble, padLeft_zero, h,
    String.append_assoc, if_true]

theorem printElectrons_text (S : StdLib) (es : List Electron) :
    ∀ (i p : Nat) (t : String), ∃ p1 : Nat,
      printElectrons S i es ⟨t, true, p, 0⟩ =
        ⟨t ++ String.join (electronLines S i es), true, p1, 0⟩ := by
  induction es with
  | nil => intro i p t; exact ⟨p, by simp [printElectrons, electronLines, String.join]⟩
  | cons e rest ih =>
    intro i p t
    obtain ⟨p1, h1⟩ := ih (i + 1) 3 (t ++ electronLine S (i + 1) e)
    refine ⟨p1, ?_⟩
    simp only [printElectrons, printElectron_text, h1, electronLines, string_join_cons,
      String.append_assoc]

theorem string_join_nil : String.join [] = "" := rfl

theorem string_join_append (l1 l2 : List String) :
    String.join (l1 ++ l2) = String.join l1 ++ String.join l2 := by
  induction l1 with
  | nil => simp [string_join_nil]
  | cons a rest ih => rw [List.cons_append, string_join_cons, string_join_cons, ih,
      String.append_assoc]

theorem snapshot_eq_join {σ : Type} (S : StdLib) (s : AtomSimulation σ) :
    snapshot S s = String.join (snapshotLines S s) := by
  obtain ⟨p1, h1⟩ := printElectrons_text S s.electrons_ 0 2
    (timeLine s.time_ ++ (elementLine s.elementName_ s.protons_ s.neutrons_ s.electrons_.length ++
      headerLine))
  simp only [snapshot, AtomSimulation.printState, Ostream.initial, Ostream.put, Ostream.putNat,
    Ostream.putInt, Ostream.putDouble, Ostream.setFixed, Ostream.setprecision, fmtDouble,
    padLeft_zero, String.empty_append, if_true]
  simp only [timeLine, elementLine, headerLine, String.append_assoc] at h1
  simp only [String.append_assoc, h1, snapshotLines, string_join_cons, string_join_append,
    string_join_nil, String.append_empty, timeLine, elementLine, headerLine, separatorLine,
    padLeft_zero]

theorem electronLines_length (S : StdLib) (es : List Electron) :
    ∀ k : Nat, (electronLines S k es).length = es.length := by
  induction es with
  | nil => intro k; rfl
  | cons e rest ih => intro k; simp [electronLines, ih]

theorem snapshotLines_length {σ : Type} (S : StdLib) (s : AtomSimulation σ) :
    (snapshotLines S s).length = s.electrons_.length + 4 := by
  simp [snapshotLines, electronLines_length]

/-! ## C11: the empty occupancy sequence -/

theorem construct_nil_electrons {σ : Type} (R : Rng σ) (elementName : String)
    (protons neutrons : Int) (seed : Nat) :
    (AtomSimulation.construct R elementName protons neutrons [] seed).electrons_ = [] := rfl

theorem timeLine_zero : timeLine 0 = "Time: 0.00 s\n" := by decide!

/-- C11. Constructing with the empty shell-occupancy sequence gives a state with no
electrons, and `printState` on it writes exactly four lines: the time line, the element
line with electron count `e=0`, the header line and the separator, with no per-electron
line between header and separator. -/
theorem empty_occupancy_snapshot {σ : Type} (R : Rng σ) (S : StdLib) (elementName : String)
    (protons neutrons : Int) (seed : Nat) :
    (AtomSimulation.construct R elementName protons neutrons [] seed).electrons_ = [] ∧
      (AtomSimulation.construct R elementName protons neutrons [] seed).electrons_.length = 0 ∧
      snapshotLines S (AtomSimulation.construct R elementName protons neutrons [] seed) =
        [timeLine 0, elementLine elementName protons neutrons 0, headerLine, separatorLine] ∧
      snapshot S (AtomSimulation.construct R elementName protons neutrons [] seed) =
        "Time: 0.00 s\n" ++
          ("Element: " ++ elementName ++ " (p=" ++ toString protons ++ ", n=" ++
            toString neutrons ++ ", e=0)\n") ++
          "Electron positions (x, y):\n" ++
          "----------------------------------------\n" := by
  have hl : snapshotLines S (AtomSimulation.construct R elementName protons neutrons [] seed) =
      [timeLine 0, elementLine elementName protons neutrons 0, headerLine, separatorLine] := rfl
  refine ⟨rfl, rfl, hl, ?_⟩
  have h0 : toString (0 : Nat) = "0" := by decide
  have h1 : ", e=" ++ "0" ++ ")\n" = ", e=0)\n" := by decide
  rw [snapshot_eq_join, hl]
  simp only [string_join_cons, string_join_nil, String.append_empty, timeLine_zero, elementLine,
    headerLine, separatorLine, h0, String.append_assoc]
  rw [← String.append_assoc ", e=" "0", ← String.append_assoc (", e=" ++ "0"), h1]

/-! ## C12: the initial angles -/

theorem pushElectron_fold_angle {σ : Type} (R : Rng σ) (P : ℚ → Prop)
    (hP : ∀ g : σ, P (R.angleDist g).1) (shell count : Int) (n : Nat) :
    ∀ st : List Electron × σ, (∀ e ∈ st.1, P e.angle) →
      ∀ e ∈ ((List.range n).foldl (pushElectron R shell count) st).1, P e.angle := by
  induction n with
  | zero => intro st h; simpa using h
  | succ n ih =>
    intro st h e he
    rw [List.range_succ, List.foldl_append] at he
    simp only [List.foldl_cons, List.foldl_nil, pushElectron, List.mem_append,
      List.mem_singleton] at he
    rcases he with he | he
    · exact ih st h e he
    · subst he
      exact hP _

theorem shellLoop_angle {σ : Type} (R : Rng σ) (P : ℚ → Prop)
    (hP : ∀ g : σ, P (R.angleDist g).1) (occ : List Int) :
    ∀ (shellIndex : Nat) (st : List Electron × σ), (∀ e ∈ st.1, P e.angle) →
      ∀ e ∈ (shellLoop R shellIndex occ st).1, P e.angle := by
  induction occ with
  | nil => intro k st h; simpa [shellLoop] using h
  | cons c rest ih =>
    intro k st h
    simp only [shellLoop]
    exact ih (k + 1) _ (pushElectron_fold_angle R P hP _ c c.toNat st h)

theorem construct_angle {σ : Type} (R : Rng σ) (P : ℚ → Prop)
    (hP : ∀ g : σ, P (R.angleDist g).1) (elementName : String) (protons neutrons : Int)
    (occ : List Int) (seed : Nat) :
    ∀ e ∈ (AtomSimulation.construct R elementName protons neutrons occ seed).electrons_,
      P e.angle := by
  rw [construct_electrons_eq]
  exact shellLoop_angle R P hP occ 0 _ (by simp)

theorem counterRng_inRange : counterRng.InRange := by
  intro g
  have h : g % 25 < 25 := Nat.mod_lt g (by norm_num)
  have hq : (((g % 25 : Nat) : ℚ)) < 25 := by exact_mod_cast h
  have h0 : (0 : ℚ) ≤ ((g % 25 : Nat) : ℚ) := Nat.cast_nonneg _
  simp only [counterRng, kPi]
  constructor
  · positivity
  · linarith

/-- C12. When every draw of the distribution lies in `[0, 2 * kPi)`, then for every
occupancy sequence and seed every electron of the freshly constructed state has its angle in
`[0, 2 * kPi)`, hence below `2 * π`: the constructor stores each draw unchanged, so the
angle range holds before the first `step`. -/
theorem construct_angle_range {σ : Type} (R : Rng σ) (hR : R.InRange) (elementName : String)
    (protons neutrons : Int) (occ : List Int) (seed : Nat) (e : Electron)
    (he : e ∈ (AtomSimulation.construct R elementName protons neutrons occ seed).electrons_) :
    0 ≤ e.angle ∧ e.angle < 2 * kPi ∧ ((e.angle : ℚ) : ℝ) < 2 * Real.pi := by
  have h := construct_angle R (fun a => 0 ≤ a ∧ a < 2 * kPi) hR elementName protons neutrons
    occ seed e he
  refine ⟨h.1, h.2, ?_⟩
  have hc : ((e.angle : ℚ) : ℝ) < ((2 * kPi : ℚ) : ℝ) := by exact_mod_cast h.2
  have hk := kPi_lt_pi
  push_cast at hc
  linarith

/-- C12 at a concrete input: with the counter generator and seed `42`, the single electron
of occupancy `[1]` starts at angle `17 / 4`. -/
theorem construct_angle_range_witness :
    (counterRng.InRange ∧
        (⟨1, 17 / 4, 3⟩ : Electron) ∈
          (AtomSimulation.construct counterRng "H" 1 0 [1] 42).electrons_) ∧
      (0 ≤ (17 / 4 : ℚ) ∧ (17 / 4 : ℚ) < 2 * kPi ∧ (((17 / 4 : ℚ) : ℚ) : ℝ) < 2 * Real.pi) :=
  ⟨⟨counterRng_inRange, by decide!⟩,
   construct_angle_range counterRng counterRng_inRange "H" 1 0 [1] 42 ⟨1, 17 / 4, 3⟩
     (by decide!)⟩

/-! ## Counting line breaks -/

theorem lineBreaks_append (a b : String) : lineBreaks (a ++ b) = lineBreaks a + lineBreaks b := by
  simp [lineBreaks, List.count_append]

theorem lineBreaks_mk (l : List Char) : lineBreaks (String.mk l) = l.count '\n' := rfl

theorem lineBreaks_join (l : List String) :
    lineBreaks (String.join l) = (l.map lineBreaks).sum := by
  induction l with
  | nil => rfl
  | cons a rest ih => rw [string_join_cons, lineBreaks_append, ih, List.map_cons, List.sum_cons]

theorem ite_ne_char {c : Prop} [Decidable c] {a b x : Char} (ha : a ≠ x) (hb : b ≠ x) :
    (if c then a else b) ≠ x := by
  by_cases hc : c
  · rw [if_pos hc]; exact ha
  · rw [if_neg hc]; exact hb

theorem digitChar_ne_newline (d : Nat) : Nat.digitChar d ≠ '\n' := by
  unfold Nat.digitChar
  repeat' apply ite_ne_char
  all_goals decide

theorem toDigitsCore_count (base fuel : Nat) :
    ∀ (n : Nat) (ds : List Char),
      (Nat.toDigitsCore base fuel n ds).count '\n' = ds.count '\n' := by
  induction fuel with
  | zero => intro n ds; rfl
  | succ fuel ih =>
    intro n ds
    have hd : (Nat.digitChar (n % base) :: ds).count '\n' = ds.count '\n' :=
      List.count_cons_of_ne (digitChar_ne_newline _).symm ds
    simp only [Nat.toDigitsCore]
    split_ifs
    · exact hd
    · rw [ih, hd]

theorem lineBreaks_toString_nat (n : Nat) : lineBreaks (toString n) = 0 := by
  show (Nat.toDigits 10 n).count '\n' = 0
  unfold Nat.toDigits
  rw [toDigitsCore_count]
  rfl

theorem lineBreaks_toString_int (n : Int) : lineBreaks (toString n) = 0 := by
  cases n with
  | ofNat m => exact lineBreaks_toString_nat m
  | negSucc m =>
    show lineBreaks ("-" ++ toString (Nat.succ m)) = 0
    rw [lineBreaks_append, lineBreaks_toString_nat]
    rfl

theorem lineBreaks_replicate (k : Nat) (c : Char) (hc : c ≠ '\n') :
    lineBreaks (String.mk (List.replicate k c)) = 0 := by
  rw [lineBreaks_mk, List.count_replicate]
  simp [hc]

theorem lineBreaks_fixedFmt (prec : Nat) (x : ℚ) : lineBreaks (fixedFmt prec x) = 0 := by
  have h1 : lineBreaks "-" = 0 := by decide
  have h2 : lineBreaks "" = 0 := by decide
  have h3 : lineBreaks "." = 0 := by decide
  simp only [fixedFmt, lineBreaks_append, lineBreaks_toString_nat]
  split_ifs <;>
    simp [h1, h2, h3, lineBreaks_append, lineBreaks_toString_nat, lineBreaks_replicate]

theorem lineBreaks_padLeft (w : Nat) (s : String) : lineBreaks (padLeft w s) = lineBreaks s := by
  rw [padLeft, lineBreaks_append, lineBreaks_replicate _ _ (by decide), Nat.zero_add]

/-! ## The lines of a snapshot -/

theorem isLine_lineBreaks {l : String} (h : IsLine l) : lineBreaks l = 1 := by
  obtain ⟨body, rfl, hb⟩ := h
  rw [lineBreaks_append, hb]
  rfl

theorem isLine_timeLine (t : ℚ) : IsLine (timeLine t) := by
  refine ⟨"Time: " ++ fixedFmt 2 t ++ " s", ?_, ?_⟩
  · have h : " s\n" = " s" ++ "\n" := by decide
    simp only [timeLine, h, String.append_assoc]
  · have h1 : lineBreaks "Time: " = 0 := by decide
    have h2 : lineBreaks " s" = 0 := by decide
    simp only [lineBreaks_append, lineBreaks_fixedFmt, h1, h2]

theorem lineBreaks_elementLine (name : String) (protons neutrons : Int) (count : Nat) :
    lineBreaks (elementLine name protons neutrons count) = lineBreaks name + 1 := by
  have h1 : lineBreaks "Element: " = 0 := by decide
  have h2 : lineBreaks " (p=" = 0 := by decide
  have h3 : lineBreaks ", n=" = 0 := by decide
  have h4 : lineBreaks ", e=" = 0 := by decide
  have h5 : lineBreaks ")\n" = 1 := by decide
  simp only [elementLine, lineBreaks_append, lineBreaks_toString_nat, lineBreaks_toString_int,
    h1, h2, h3, h4, h5]
  omega

theorem isLine_elementLine (name : String) (protons neutrons : Int) (count : Nat)
    (hname : lineBreaks name = 0) : IsLine (elementLine name protons neutrons count) := by
  refine ⟨"Element: " ++ name ++ " (p=" ++ toString protons ++ ", n=" ++ toString neutrons ++
    ", e=" ++ toString count ++ ")", ?_, ?_⟩
  · have h : ")\n" = ")" ++ "\n" := by decide
    simp only [elementLine, h, String.append_assoc]
  · have h1 : lineBreaks "Element: " = 0 := by decide
    have h2 : lineBreaks " (p=" = 0 := by decide
    have h3 : lineBreaks ", n=" = 0 := by decide
    have h4 : lineBreaks ", e=" = 0 := by decide
    have h5 : lineBreaks ")" = 0 := by decide
    simp only [lineBreaks_append, lineBreaks_toString_nat, lineBreaks_toString_int, h1, h2, h3,
      h4, h5, hname]

theorem isLine_headerLine : IsLine headerLine :=
  ⟨"Electron positions (x, y):", by decide, by decide⟩

theorem isLine_separatorLine : IsLine separatorLine :=
  ⟨"----------------------------------------", by decide, by decide⟩

theorem isLine_electronLine (S : StdLib) (k : Nat) (e : Electron) :
    IsLine (electronLine S k e) := by
  refine ⟨"  e" ++ toString k ++ " [shell " ++ toString e.shell ++ "] -> (" ++
    padLeft 7 (fixedFmt 3 (position S e).1) ++ ", " ++
    padLeft 7 (fixedFmt 3 (position S e).2) ++ ")", ?_, ?_⟩
  · have h : ")\n" = ")" ++ "\n" := by decide
    simp only [electronLine, h, String.append_assoc]
  · have h1 : lineBreaks "  e" = 0 := by decide
    have h2 : lineBreaks " [shell " = 0 := by decide
    have h3 : lineBreaks "] -> (" = 0 := by decide
    have h4 : lineBreaks ", " = 0 := by decide
    have h5 : lineBreaks ")" = 0 := by decide
    simp only [lineBreaks_append, lineBreaks_toString_nat, lineBreaks_toString_int,
      lineBreaks_padLeft, lineBreaks_fixedFmt, h1, h2, h3, h4, h5]

theorem isLine_electronLines (S : StdLib) (es : List Electron) :
    ∀ k : Nat, ∀ l ∈ electronLines S k es, IsLine l := by
  induction es with
  | nil => intro k l hl; simp [electronLines] at hl
  | cons e rest ih =>
    intro k l hl
    simp only [electronLines, List.mem_cons] at hl
    rcases hl with rfl | hl
    · exact isLine_electronLine S (k + 1) e
    · exact ih (k + 1) l hl

theorem electronLines_eq_zipWith (S : StdLib) (es : List Electron) :
    ∀ k : Nat, electronLines S k es =
      List.zipWith (electronLine S) (List.range' (k + 1) es.length) es := by
  induction es with
  | nil => intro k; simp [electronLines]
  | cons e rest ih =>
    intro k
    simp only [electronLines, List.length_cons, List.range'_succ, List.zipWith_cons_cons, ih]

theorem lineBreaks_electronLines (S : StdLib) (es : List Electron) :
    ∀ k : Nat, ((electronLines S k es).map lineBreaks).sum = es.length := by
  induction es with
  | nil => intro k; rfl
  | cons e rest ih =>
    intro k
    simp only [electronLines, List.map_cons, List.sum_cons, ih, List.length_cons,
      isLine_lineBreaks (isLine_electronLine S (k + 1) e)]
    omega

theorem lineBreaks_snapshot {σ : Type} (S : StdLib) (s : AtomSimulation σ) :
    lineBreaks (snapshot S s) = s.electrons_.length + 4 + lineBreaks s.elementName_ := by
  rw [snapshot_eq_join, lineBreaks_join]
  simp only [snapshotLines, List.map_cons, List.map_append, List.map_nil, List.sum_cons,
    List.sum_append, List.sum_nil, lineBreaks_electronLines, lineBreaks_elementLine,
    isLine_lineBreaks (isLine_timeLine _), isLine_lineBreaks isLine_headerLine,
    isLine_lineBreaks isLine_separatorLine]
  omega

/-! ## C13: the lines written by `printState` -/

/-- C13, as stated, fails at a concrete input: the state constructed with element name
`"a\nb"` and empty occupancy has `n = 0` electrons, and `printState` writes 5 lines, not
`n + 4 = 4`, because the element name is written verbatim. -/
theorem printState_lines_counterexample :
    (AtomSimulation.construct counterRng "a\nb" 1 0 [] 42).electrons_.length = 0 ∧
      lineBreaks (snapshot circleLib (AtomSimulation.construct counterRng "a\nb" 1 0 [] 42)) = 5 ∧
      lineBreaks (snapshot circleLib (AtomSimulation.construct counterRng "a\nb" 1 0 [] 42)) ≠
        (AtomSimulation.construct counterRng "a\nb" 1 0 [] 42).electrons_.length + 4 := by
  have h : lineBreaks (snapshot circleLib (AtomSimulation.construct counterRng "a\nb" 1 0 [] 42))
      = 5 := by
    rw [lineBreaks_snapshot]
    decide
  refine ⟨rfl, h, ?_⟩
  rw [h]
  decide

/-- C13, amended. For every state with `n` electrons whose element name contains no newline
character, `printState` (on `std::cout` with field width `0`) appends exactly `n + 4` lines:
the time line, the element line carrying element name, proton count, neutron count and `n`,
the header line, then one line per electron in collection order numbered `1..n` showing
that electron's shell and the coordinates `x = shellRadius(shell) * cos(angle)`,
`y = shellRadius(shell) * sin(angle)`, then the separator line.  Each of them is a single
line, and the text has `n + 4` newline characters. -/
theorem printState_lines {σ : Type} (S : StdLib) (s : AtomSimulation σ) (t : String) (f : Bool)
    (p : Nat) (hname : lineBreaks s.elementName_ = 0) :
    (s.printState S ⟨t, f, p, 0⟩).2.text = t ++ String.join (snapshotLines S s) ∧
      snapshotLines S s =
        [timeLine s.time_,
          elementLine s.elementName_ s.protons_ s.neutrons_ s.electrons_.length, headerLine] ++
        List.zipWith (electronLine S) (List.range' 1 s.electrons_.length) s.electrons_ ++
        [separatorLine] ∧
      (snapshotLines S s).length = s.electrons_.length + 4 ∧
      (∀ l ∈ snapshotLines S s, IsLine l) ∧
      lineBreaks (snapshot S s) = s.electrons_.length + 4 ∧
      (∀ e : Electron, position S e =
        (shellRadius e.shell * S.cos e.angle, shellRadius e.shell * S.sin e.angle)) := by
  refine ⟨?_, ?_, snapshotLines_length S s, ?_, ?_, fun _ => rfl⟩
  · rw [printState_text, snapshot_eq_join]
  · simp only [snapshotLines, electronLines_eq_zipWith, List.cons_append, List.nil_append,
      Nat.zero_add]
  · intro l hl
    simp only [snapshotLines, List.mem_cons, List.mem_append, List.mem_singleton,
      List.not_mem_nil, or_false] at hl
    rcases hl with rfl | rfl | rfl | hl | rfl
    · exact isLine_timeLine _
    · exact isLine_elementLine _ _ _ _ hname
    · exact isLine_headerLine
    · exact isLine_electronLines S _ 0 l hl
    · exact isLine_separatorLine
  · rw [lineBreaks_snapshot, hname]

/-- C13, amended, at a concrete input: the carbon atom with occupancy `[2, 4]`; six
electrons, ten lines. -/
theorem printState_lines_witness :
    lineBreaks (AtomSimulation.construct counterRng "Carbon" 6 6 [2, 4] 42).elementName_ = 0 ∧
      (snapshotLines circleLib
          (AtomSimulation.construct counterRng "Carbon" 6 6 [2, 4] 42)).length = 6 + 4 ∧
      lineBreaks (snapshot circleLib (AtomSimulation.construct counterRng "Carbon" 6 6 [2, 4] 42))
        = 6 + 4 :=
  ⟨by decide,
   (printState_lines circleLib (AtomSimulation.construct counterRng "Carbon" 6 6 [2, 4] 42) ""
      false 6 (by decide)).2.2.1,
   (printState_lines circleLib (AtomSimulation.construct counterRng "Carbon" 6 6 [2, 4] 42) ""
      false 6 (by decide)).2.2.2.2.1⟩

/-! ## C14: when the `2 * kPi` adjustment is not taken -/

theorem pushElectron_velocity {σ : Type} (R : Rng σ) (shell count : Int)
    (st : List Electron × σ) (i : Nat) :
    (pushElectron R shell count st i).1 =
      st.1 ++ [⟨shell, (R.angleDist st.2).1, 3 / (shell : ℚ) + jitter i count⟩] := rfl

theorem eq_of_range_of_sub_eq {a b y : ℚ} (m : Int) (ha : 0 ≤ a ∧ a < y) (hb : 0 ≤ b ∧ b < y)
    (hm : a - b = (m : ℚ) * y) : a = b := by
  have hy : 0 < y := lt_of_le_of_lt ha.1 ha.2
  rcases lt_trichotomy m 0 with h | h | h
  · have h1 : (m : ℚ) ≤ -1 := by
      have : m ≤ -1 := by omega
      exact_mod_cast this
    nlinarith [ha.1, hb.2]
  · subst h
    simp at hm
    linarith
  · have h1 : (1 : ℚ) ≤ (m : ℚ) := by
      have : 1 ≤ m := by omega
      exact_mod_cast this
    nlinarith [ha.2, hb.1]

theorem normalize_add_normalize (x z : ℚ) : normalize (normalize x + z) = normalize (x + z) := by
  obtain ⟨k, hk⟩ := normalize_mod x
  obtain ⟨k1, hk1⟩ := normalize_mod (x + z)
  obtain ⟨k2, hk2⟩ := normalize_mod (normalize x + z)
  refine eq_of_range_of_sub_eq (k1 - k - k2) (normalize_range _) (normalize_range _) ?_
  rw [hk2, hk1, hk]
  push_cast
  ring

theorem normalize_of_range {a : ℚ} (ha : 0 ≤ a ∧ a < 2 * kPi) : normalize a = a := by
  obtain ⟨k, hk⟩ := normalize_mod a
  refine eq_of_range_of_sub_eq (-k) (normalize_range a) ha ?_
  rw [hk]
  push_cast
  ring

theorem stepElectron_add (dt1 dt2 : ℚ) (e : Electron) :
    stepElectron dt2 (stepElectron dt1 e) = stepElectron (dt1 + dt2) e := by
  rw [stepElectron_eq dt1 e, stepElectron_eq, stepElectron_eq]
  simp only [normalize_add_normalize]
  congr 2
  ring

theorem step_add {σ : Type} (s : AtomSimulation σ) (dt1 dt2 : ℚ) :
    (s.step dt1).step dt2 = s.step (dt1 + dt2) := by
  simp only [AtomSimulation.step, List.map_map, add_assoc]
  congr 1
  apply List.map_congr_left
  intro e _
  exact stepElectron_add dt1 dt2 e

theorem steps_replicate_succ_electrons {σ : Type} (dt : ℚ) (n : Nat) :
    ∀ s : AtomSimulation σ,
      (s.steps (List.replicate (n + 1) dt)).electrons_ =
        s.electrons_.map fun e =>
          ⟨e.shell, normalize (e.angle + e.angularVelocity * (((n + 1 : Nat) : ℚ) * dt)),
            e.angularVelocity⟩ := by
  induction n with
  | zero =>
    intro s
    simp only [List.replicate, AtomSimulation.steps, List.foldl_cons, List.foldl_nil,
      AtomSimulation.step]
    apply List.map_congr_left
    intro e _
    rw [stepElectron_eq]
    norm_num
  | succ n ih =>
    intro s
    rw [List.replicate_succ, steps_cons, ih (s.step dt)]
    simp only [AtomSimulation.step, List.map_map]
    apply List.map_congr_left
    intro e _
    simp only [Function.comp, stepElectron_eq, normalize_add_normalize]
    congr 2
    push_cast
    ring

/-- Under the exact reading of `double`, the update rule of `step` is additive: `step(dt1)`
followed by `step(dt2)` gives the same state as the single `step(dt1 + dt2)`, and after
`n + 1` calls of `step(dt)` each angle is
`normalize(initialAngle + angularVelocity * (n + 1) * dt)`. -/
theorem step_additive_exact {σ : Type} (s : AtomSimulation σ) (dt1 dt2 dt : ℚ) (n : Nat) :
    (s.step dt1).step dt2 = s.step (dt1 + dt2) ∧
      ((s.step dt1).step dt2).electrons_.map Electron.angle =
        (s.step (dt1 + dt2)).electrons_.map Electron.angle ∧
      ((s.step dt1).step dt2).time_ = (s.step (dt1 + dt2)).time_ ∧
      (s.steps (List.replicate (n + 1) dt)).electrons_ =
        s.electrons_.map fun e =>
          ⟨e.shell, normalize (e.angle + e.angularVelocity * ((n + 1 : Nat) : ℚ) * dt),
            e.angularVelocity⟩ := by
  have hadd := step_add s dt1 dt2
  refine ⟨hadd, by rw [hadd], by rw [hadd], ?_⟩
  rw [steps_replicate_succ_electrons]
  apply List.map_congr_left
  intro e _
  congr 2
  ring

/-! ## C18: negative occupancy counts -/

theorem sum_toNat_eq_sum_max (occ : List Int) :
    (((occ.map Int.toNat).sum : Nat) : Int) = (occ.map (fun c => max 0 c)).sum := by
  induction occ with
  | nil => simp
  | cons c rest ih =>
    simp only [List.map_cons, List.sum_cons, Nat.cast_add, ih, Int.toNat_eq_max, max_comm]

theorem construct_length {σ : Type} (R : Rng σ) (elementName : String) (protons neutrons : Int)
    (occ : List Int) (seed : Nat) :
    (AtomSimulation.construct R elementName protons neutrons occ seed).electrons_.length =
      (occ.map Int.toNat).sum := by
  rw [← specElectrons_length occ 1, ← construct_key R elementName protons neutrons occ seed,
    List.length_map]

/-- C18. The constructor is defined for every occupancy sequence and has no error result; a
shell whose count is zero or negative contributes no electrons, so the number of electrons
is the sum of `max(0, count)` over the shells; for the occupancy `[-1]` the state has no
electrons while the occupancy sums to `-1`, so `electrons.length == sum(shellOccupancy)`
fails there. -/
theorem negative_occupancy {σ : Type} (R : Rng σ) (elementName : String) (protons neutrons : Int)
    (occ : List Int) (seed : Nat) :
    (((AtomSimulation.construct R elementName protons neutrons occ seed).electrons_.length : Nat)
        : Int) = (occ.map (fun count => max 0 count)).sum ∧
      (AtomSimulation.construct R elementName protons neutrons [-1] seed).electrons_ = [] ∧
      (AtomSimulation.construct R elementName protons neutrons [-1] seed).shellOccupancy_.sum
        = -1 ∧
      (((AtomSimulation.construct R elementName protons neutrons [-1] seed).electrons_.length
          : Nat) : Int) ≠
        (AtomSimulation.construct R elementName protons neutrons [-1] seed).shellOccupancy_.sum := by
  refine ⟨?_, rfl, rfl, ?_⟩
  · rw [construct_length, sum_toNat_eq_sum_max]
  · show ((0 : Nat) : Int) ≠ -1
    decide

/-! ## Facts about rounding to `double` -/

theorem pow2_eq_zpow (p : Int) : pow2 p = (2 : ℚ) ^ p := by
  unfold pow2
  split_ifs with h
  · have hp : p = ((p.toNat : Nat) : Int) := (Int.toNat_of_nonneg h).symm
    conv_rhs => rw [hp]
    rw [zpow_natCast]
    push_cast
    rfl
  · have hp : p = -(((-p).toNat : Nat) : Int) := by
      rw [Int.toNat_of_nonneg (by omega)]; ring
    conv_rhs => rw [hp]
    rw [zpow_neg, zpow_natCast]
    push_cast
    rw [one_div]

theorem pow2_pos (p : Int) : 0 < pow2 p := by
  rw [pow2_eq_zpow]
  exact zpow_pos (by norm_num) p

theorem pow2_mono {a b : Int} (h : a ≤ b) : pow2 a ≤ pow2 b := by
  rw [pow2_eq_zpow, pow2_eq_zpow]
  exact zpow_le_zpow_right₀ (by norm_num) h

theorem pow2_add (a b : Int) : pow2 (a + b) = pow2 a * pow2 b := by
  rw [pow2_eq_zpow, pow2_eq_zpow, pow2_eq_zpow]
  exact zpow_add₀ (by norm_num) a b

theorem pow2_natCast (n : Nat) : pow2 (n : Int) = ((2 ^ n : Nat) : ℚ) := by
  rw [pow2_eq_zpow, zpow_natCast]
  push_cast
  rfl

theorem log2Fuel_spec (fuel : Nat) :
    ∀ n : Nat, 1 ≤ n → n ≤ fuel →
      2 ^ log2Fuel fuel n ≤ n ∧ n < 2 ^ (log2Fuel fuel n + 1) := by
  induction fuel with
  | zero => intro n h1 h2; omega
  | succ fuel ih =>
    intro n h1 h2
    simp only [log2Fuel]
    split_ifs with h
    · have hn : n = 1 := by omega
      subst hn
      simp
    · have h3 := ih (n / 2) (by omega) (by omega)
      have e1 : 2 ^ (log2Fuel fuel (n / 2) + 1) = 2 * 2 ^ log2Fuel fuel (n / 2) := by
        rw [pow_succ]; ring
      have e2 : 2 ^ (log2Fuel fuel (n / 2) + 1 + 1) = 4 * 2 ^ log2Fuel fuel (n / 2) := by
        rw [pow_succ, pow_succ]; ring
      rw [e1] at h3
      rw [e1, e2]
      omega

theorem ilog2_spec {q : ℚ} (hq : 0 < q) : pow2 (ilog2 q) ≤ q ∧ q < pow2 (ilog2 q + 1) := by
  have hnum : 0 < q.num := Rat.num_pos.mpr hq
  have ha1 : 1 ≤ q.num.toNat := by omega
  have hb1 : 1 ≤ q.den := q.den_pos
  have ha := log2Fuel_spec q.num.toNat q.num.toNat ha1 le_rfl
  have hb := log2Fuel_spec q.den q.den hb1 le_rfl
  have hqe : q = ((q.num.toNat : Nat) : ℚ) / ((q.den : Nat) : ℚ) := by
    have h1 : ((q.num.toNat : Nat) : ℚ) = ((q.num : Int) : ℚ) := by
      have : ((q.num.toNat : Nat) : Int) = q.num := Int.toNat_of_nonneg hnum.le
      exact_mod_cast congrArg (fun z : Int => (z : ℚ)) this
    rw [h1]
    exact (Rat.num_div_den q).symm
  have hbpos : (0 : ℚ) < ((q.den : Nat) : ℚ) := by exact_mod_cast hb1
  -- the four bounds as rationals
  have ha_lo : pow2 (log2Fuel q.num.toNat q.num.toNat : Int) ≤ ((q.num.toNat : Nat) : ℚ) := by
    rw [pow2_natCast]; exact_mod_cast ha.1
  have ha_hi : ((q.num.toNat : Nat) : ℚ) < pow2 ((log2Fuel q.num.toNat q.num.toNat : Int) + 1) := by
    have : ((log2Fuel q.num.toNat q.num.toNat : Int) + 1) =
        ((log2Fuel q.num.toNat q.num.toNat + 1 : Nat) : Int) := by push_cast; ring
    rw [this, pow2_natCast]; exact_mod_cast ha.2
  have hb_lo : pow2 (log2Fuel q.den q.den : Int) ≤ ((q.den : Nat) : ℚ) := by
    rw [pow2_natCast]; exact_mod_cast hb.1
  have hb_hi : ((q.den : Nat) : ℚ) < pow2 ((log2Fuel q.den q.den : Int) + 1) := by
    have : ((log2Fuel q.den q.den : Int) + 1) = ((log2Fuel q.den q.den + 1 : Nat) : Int) := by
      push_cast; ring
    rw [this, pow2_natCast]; exact_mod_cast hb.2
  set la : Int := (log2Fuel q.num.toNat q.num.toNat : Int) with hla
  set lb : Int := (log2Fuel q.den q.den : Int) with hlb
  set a : ℚ := ((q.num.toNat : Nat) : ℚ) with haq
  set b : ℚ := ((q.den : Nat) : ℚ) with hbq
  have hup : q < pow2 (la - lb + 1) := by
    have e : pow2 (la - lb + 1) * pow2 lb = pow2 (la + 1) := by
      rw [← pow2_add]; congr 1; ring
    rw [hqe, div_lt_iff₀ hbpos]
    calc a < pow2 (la + 1) := ha_hi
      _ = pow2 (la - lb + 1) * pow2 lb := e.symm
      _ ≤ pow2 (la - lb + 1) * b := by
        exact mul_le_mul_of_nonneg_left hb_lo (pow2_pos _).le
  have hlo : pow2 (la - lb - 1) ≤ q := by
    have e : pow2 (la - lb - 1) * pow2 (lb + 1) = pow2 la := by
      rw [← pow2_add]; congr 1; ring
    rw [hqe, le_div_iff₀ hbpos]
    calc pow2 (la - lb - 1) * b ≤ pow2 (la - lb - 1) * pow2 (lb + 1) := by
          exact mul_le_mul_of_nonneg_left hb_hi.le (pow2_pos _).le
      _ = pow2 la := e
      _ ≤ a := ha_lo
  have hdef : ilog2 q = if pow2 (la - lb) ≤ q then la - lb else la - lb - 1 := rfl
  rw [hdef]
  split_ifs with h
  · exact ⟨h, hup⟩
  · refine ⟨hlo, ?_⟩
    have e : la - lb - 1 + 1 = la - lb := by ring
    rw [e]
    exact lt_of_not_le h

theorem ilog2_mono {q1 q2 : ℚ} (h1 : 0 < q1) (h12 : q1 ≤ q2) : ilog2 q1 ≤ ilog2 q2 := by
  by_contra hcon
  have hlt : ilog2 q2 + 1 ≤ ilog2 q1 := by omega
  have s1 := ilog2_spec h1
  have s2 := ilog2_spec (lt_of_lt_of_le h1 h12)
  have := pow2_mono hlt
  linarith [s1.1, s2.2]

theorem roundHalfEven_floor {x : ℚ} (hx : 0 ≤ x) :
    ((⌊x⌋.toNat : Nat) : ℚ) ≤ x ∧ x < ((⌊x⌋.toNat : Nat) : ℚ) + 1 := by
  have hf : 0 ≤ ⌊x⌋ := Int.floor_nonneg.mpr hx
  have hc : ((⌊x⌋.toNat : Nat) : ℚ) = ((⌊x⌋ : Int) : ℚ) := by
    have : ((⌊x⌋.toNat : Nat) : Int) = ⌊x⌋ := Int.toNat_of_nonneg hf
    exact_mod_cast congrArg (fun z : Int => (z : ℚ)) this
  rw [hc]
  exact ⟨Int.floor_le x, Int.lt_floor_add_one x⟩

theorem roundHalfEven_cases (x : ℚ) :
    roundHalfEven x = ⌊x⌋.toNat ∨
      (roundHalfEven x = ⌊x⌋.toNat + 1 ∧ 1 / 2 ≤ x - ((⌊x⌋.toNat : Nat) : ℚ)) := by
  simp only [roundHalfEven]
  split_ifs with h1 h2 h3
  · exact Or.inl rfl
  · exact Or.inr ⟨rfl, h2.le⟩
  · exact Or.inl rfl
  · exact Or.inr ⟨rfl, not_lt.mp h1⟩

theorem roundHalfEven_le_of_le {x : ℚ} (hx : 0 ≤ x) (n : Nat) (h : x ≤ (n : ℚ)) :
    roundHalfEven x ≤ n := by
  have hf := roundHalfEven_floor hx
  have hfn : ((⌊x⌋.toNat : Nat) : ℚ) ≤ (n : ℚ) := le_trans hf.1 h
  have hfn1 : ⌊x⌋.toNat ≤ n := by exact_mod_cast hfn
  rcases roundHalfEven_cases x with hc | ⟨hc, hr⟩
  · rw [hc]; exact hfn1
  · rw [hc]
    have hlt : ((⌊x⌋.toNat : Nat) : ℚ) < (n : ℚ) := by linarith
    have : ⌊x⌋.toNat < n := by exact_mod_cast hlt
    omega

theorem roundHalfEven_ge_of_ge {x : ℚ} (hx : 0 ≤ x) (n : Nat) (h : (n : ℚ) ≤ x) :
    n ≤ roundHalfEven x := by
  have hf := roundHalfEven_floor hx
  have hlt : (n : ℚ) < ((⌊x⌋.toNat : Nat) : ℚ) + 1 := lt_of_le_of_lt h hf.2
  have h1 : n < ⌊x⌋.toNat + 1 := by exact_mod_cast hlt
  rcases roundHalfEven_cases x with hc | ⟨hc, _⟩
  · rw [hc]; omega
  · rw [hc]; omega

theorem roundMag_nonneg (q : ℚ) : 0 ≤ roundMag q := by
  unfold roundMag
  split_ifs
  · exact le_rfl
  · exact mul_nonneg (Nat.cast_nonneg _) (pow2_pos _).le

theorem ulpExp_mono {q1 q2 : ℚ} (h1 : 0 < q1) (h12 : q1 ≤ q2) : ulpExp q1 ≤ ulpExp q2 := by
  have h := ilog2_mono h1 h12
  unfold ulpExp
  exact max_le_max (by omega) le_rfl

/-- Rounding does not cross a number that rounding leaves fixed: a positive `z` below a
binary64 magnitude `y` rounds to at most `y`. -/
theorem roundMag_le_of_le {z y : ℚ} (hz : 0 < z) (hzy : z ≤ y) (hy : roundMag y = y) :
    roundMag z ≤ y := by
  have hypos : 0 < y := lt_of_lt_of_le hz hzy
  have hu := ulpExp_mono hz hzy
  have hzr : roundMag z = (roundHalfEven (z / pow2 (ulpExp z)) : ℚ) * pow2 (ulpExp z) := by
    unfold roundMag; rw [if_neg hz.ne']
  have hyr : (roundHalfEven (y / pow2 (ulpExp y)) : ℚ) * pow2 (ulpExp y) = y := by
    have := hy
    unfold roundMag at this
    rw [if_neg hypos.ne'] at this
    exact this
  rw [hzr]
  rcases eq_or_lt_of_le hu with heq | hlt
  · -- same last place
    rw [heq]
    have hs := pow2_pos (ulpExp y)
    have hle : z / pow2 (ulpExp y) ≤ ((roundHalfEven (y / pow2 (ulpExp y)) : Nat) : ℚ) := by
      rw [div_le_iff₀ hs, hyr]; exact hzy
    have hn := roundHalfEven_le_of_le (div_nonneg hz.le hs.le) _ hle
    have hnq : ((roundHalfEven (z / pow2 (ulpExp y)) : Nat) : ℚ) ≤
        ((roundHalfEven (y / pow2 (ulpExp y)) : Nat) : ℚ) := by exact_mod_cast hn
    calc ((roundHalfEven (z / pow2 (ulpExp y)) : Nat) : ℚ) * pow2 (ulpExp y)
        ≤ ((roundHalfEven (y / pow2 (ulpExp y)) : Nat) : ℚ) * pow2 (ulpExp y) :=
          mul_le_mul_of_nonneg_right hnq hs.le
      _ = y := hyr
  · -- a finer last place
    have hs := pow2_pos (ulpExp z)
    have hsz := ilog2_spec hz
    have hsy := ilog2_spec hypos
    have huz : ilog2 z - 52 ≤ ulpExp z := le_max_left _ _
    have huy : ulpExp y = ilog2 y - 52 := by
      have hge : (-1074 : Int) ≤ ulpExp z := le_max_right _ _
      unfold ulpExp at hlt ⊢
      rcases max_cases (ilog2 y - 52) (-1074) with ⟨h, _⟩ | ⟨h, _⟩
      · exact h
      · rw [h] at hlt
        unfold ulpExp at hge
        omega
    have hz53 : z / pow2 (ulpExp z) ≤ (((2 ^ 53 : Nat) : Nat) : ℚ) := by
      rw [div_le_iff₀ hs, ← pow2_natCast, ← pow2_add]
      have : pow2 (ilog2 z + 1) ≤ pow2 (((53 : Nat) : Int) + ulpExp z) :=
        pow2_mono (by push_cast; omega)
      linarith [hsz.2]
    have hn := roundHalfEven_le_of_le (div_nonneg hz.le hs.le) _ hz53
    have hnq : ((roundHalfEven (z / pow2 (ulpExp z)) : Nat) : ℚ) ≤ (((2 ^ 53 : Nat) : Nat) : ℚ) := by
      exact_mod_cast hn
    calc ((roundHalfEven (z / pow2 (ulpExp z)) : Nat) : ℚ) * pow2 (ulpExp z)
        ≤ (((2 ^ 53 : Nat) : Nat) : ℚ) * pow2 (ulpExp z) :=
          mul_le_mul_of_nonneg_right hnq hs.le
      _ = pow2 (((53 : Nat) : Int) + ulpExp z) := by rw [pow2_add, pow2_natCast]
      _ ≤ pow2 (ilog2 y) := pow2_mono (by push_cast; omega)
      _ ≤ y := hsy.1

theorem roundD_of_pos_le {z y : ℚ} (hz : 0 < z) (hzy : z ≤ y) (hy : roundMag y = y)
    (hmax : y ≤ maxFinite) :
    roundD z = Dbl.fin (roundMag z) ∧ 0 ≤ roundMag z ∧ roundMag z ≤ y := by
  have hle := roundMag_le_of_le hz hzy hy
  refine ⟨?_, roundMag_nonneg z, hle⟩
  unfold roundD
  rw [abs_of_pos hz, if_pos (le_trans hle hmax), if_neg (not_lt.mpr hz.le)]

/-! ## The rounding error of `double` operations -/

theorem roundHalfEven_err {x : ℚ} (hx : 0 ≤ x) : |((roundHalfEven x : Nat) : ℚ) - x| ≤ 1 / 2 := by
  have hf := roundHalfEven_floor hx
  rw [abs_le]
  simp only [roundHalfEven]
  split_ifs with h1 h2 h3
  · constructor <;> linarith
  · push_cast; constructor <;> linarith
  · constructor <;> linarith
  · push_cast; constructor <;> linarith

theorem pow2_neg52 : pow2 (-52) = 1 / 2 ^ 52 := by
  rw [pow2_eq_zpow]; norm_num [zpow_neg]

theorem pow2_neg1074 : pow2 (-1074) = 1 / 2 ^ 1074 := by
  rw [pow2_eq_zpow]; norm_num [zpow_neg]

theorem ulp_le {q : ℚ} (hq : 0 < q) : pow2 (ulpExp q) ≤ q / 2 ^ 52 + 1 / 2 ^ 1074 := by
  have hs := ilog2_spec hq
  unfold ulpExp
  rcases max_cases (ilog2 q - 52) (-1074) with ⟨h, _⟩ | ⟨h, _⟩
  · rw [h]
    have e : ilog2 q - 52 = ilog2 q + (-52) := by ring
    rw [e, pow2_add, pow2_neg52]
    have : pow2 (ilog2 q) * (1 / 2 ^ 52) ≤ q * (1 / 2 ^ 52) :=
      mul_le_mul_of_nonneg_right hs.1 (by positivity)
    have h2 : (0 : ℚ) ≤ 1 / 2 ^ 1074 := by positivity
    have e2 : q / 2 ^ 52 = q * (1 / 2 ^ 52) := by ring
    rw [e2]
    linarith
  · rw [h, pow2_neg1074]
    have : (0 : ℚ) ≤ q / 2 ^ 52 := by positivity
    linarith

theorem roundMag_err {q : ℚ} (hq : 0 ≤ q) :
    |roundMag q - q| ≤ q / 2 ^ 53 + 1 / 2 ^ 1075 := by
  rcases eq_or_lt_of_le hq with h0 | hpos
  · subst h0
    simp [roundMag]
  · have hs := pow2_pos (ulpExp q)
    have herr := roundHalfEven_err (div_nonneg hq hs.le)
    have hu := ulp_le hpos
    have hr : roundMag q = (roundHalfEven (q / pow2 (ulpExp q)) : ℚ) * pow2 (ulpExp q) := by
      unfold roundMag; rw [if_neg hpos.ne']
    have he : roundMag q - q =
        (((roundHalfEven (q / pow2 (ulpExp q)) : Nat) : ℚ) - q / pow2 (ulpExp q)) *
          pow2 (ulpExp q) := by
      rw [hr]; field_simp
    rw [he, abs_mul, abs_of_pos hs]
    have h1 : |((roundHalfEven (q / pow2 (ulpExp q)) : Nat) : ℚ) - q / pow2 (ulpExp q)| *
        pow2 (ulpExp q) ≤ 1 / 2 * pow2 (ulpExp q) :=
      mul_le_mul_of_nonneg_right herr hs.le
    have e3 : q / 2 ^ 53 + 1 / 2 ^ 1075 = 1 / 2 * (q / 2 ^ 52 + 1 / 2 ^ 1074) := by
      norm_num; ring
    rw [e3]
    linarith

theorem maxFinite_ge : (2 : ℚ) ^ 1002 ≤ maxFinite := by
  unfold maxFinite; norm_num

theorem roundD_err {q : ℚ} (hq : |q| ≤ 2 ^ 1000) :
    ∃ r : ℚ, roundD q = Dbl.fin r ∧ |r - q| ≤ |q| / 2 ^ 53 + 1 / 2 ^ 1075 := by
  have h0 : 0 ≤ |q| := abs_nonneg q
  have he := roundMag_err h0
  have hle : roundMag |q| ≤ maxFinite := by
    have h1 := (abs_le.mp he).2
    have h2 : |q| / 2 ^ 53 ≤ 2 ^ 1000 := by
      have : |q| / 2 ^ 53 ≤ |q| := div_le_self h0 (by norm_num)
      linarith
    have h3 : (1 : ℚ) / 2 ^ 1075 ≤ 1 := by norm_num
    have h4 : (2 : ℚ) ^ 1000 + 2 ^ 1000 + 1 ≤ 2 ^ 1002 := by norm_num
    linarith [maxFinite_ge]
  unfold roundD
  rw [if_pos hle]
  by_cases hn : q < 0
  · refine ⟨-roundMag |q|, by rw [if_pos hn], ?_⟩
    have e : -roundMag |q| - q = -(roundMag |q| - |q|) := by
      rw [abs_of_neg hn]; ring
    rw [e, abs_neg]
    exact he
  · refine ⟨roundMag |q|, by rw [if_neg hn], ?_⟩
    have e : roundMag |q| - q = roundMag |q| - |q| := by
      rw [abs_of_nonneg (not_lt.mp hn)]
    rw [e]
    exact he

theorem tiny_le {M : ℚ} (hM : 1 ≤ M) : (1 : ℚ) / 2 ^ 1075 ≤ M / 2 ^ 53 := by
  have h1 : (1 : ℚ) / 2 ^ 1075 ≤ 1 / 2 ^ 53 := by norm_num
  have h2 : (1 : ℚ) / 2 ^ 53 ≤ M / 2 ^ 53 := by
    rw [div_le_div_iff_of_pos_right (by positivity)]; exact hM
  linarith

theorem roundD_err_of_le {q B : ℚ} (hq : |q| ≤ B) (hB1 : 1 ≤ B) (hB : B ≤ 2 ^ 1000) :
    ∃ r : ℚ, roundD q = Dbl.fin r ∧ |r - q| ≤ 2 * (B / 2 ^ 53) ∧ |r| ≤ 2 * B := by
  obtain ⟨r, hr1, hr2⟩ := roundD_err (le_trans hq hB)
  have h1 : |q| / 2 ^ 53 ≤ B / 2 ^ 53 := by
    rw [div_le_div_iff_of_pos_right (by positivity)]; exact hq
  have h2 := tiny_le hB1
  have h3 : |r - q| ≤ 2 * (B / 2 ^ 53) := by linarith
  refine ⟨r, hr1, h3, ?_⟩
  have h4 : B / 2 ^ 53 ≤ B / 2 := by
    rw [div_le_div_iff₀ (by positivity) (by positivity)]
    have : (2 : ℚ) ≤ 2 ^ 53 := by norm_num
    nlinarith
  have h5 := abs_le.mp h3
  have h6 := abs_le.mp hq
  rw [abs_le]
  constructor <;> linarith

/-! ## C1: the angle range after `step`, in double arithmetic -/

theorem kPiD_eq : kPiD = Dbl.fin (884279719003555 / 281474976710656) := by decide!

theorem twoPiD_eq : twoPiD = Dbl.fin twoPiQ := by decide!

theorem twoPiQ_pos : 0 < twoPiQ := by decide!

theorem twoPiQ_fixed : roundMag twoPiQ = twoPiQ := by decide!

theorem twoPiQ_le_maxFinite : twoPiQ ≤ maxFinite := by decide!

theorem twoPiQ_le : twoPiQ ≤ 2 * kPi := by decide!

theorem twoPiQ_lt_two_pi : ((twoPiQ : ℚ) : ℝ) < 2 * Real.pi := by
  have h : ((twoPiQ : ℚ) : ℝ) ≤ ((2 * kPi : ℚ) : ℝ) := by exact_mod_cast twoPiQ_le
  have hk := kPi_lt_pi
  push_cast at h
  linarith

theorem stepElectronD_range (dt : Dbl) (e : ElectronD) (x : ℚ)
    (hx : Dbl.add e.angle (Dbl.mul e.angularVelocity dt) = Dbl.fin x) :
    ∃ a : ℚ, (stepElectronD dt e).angle = Dbl.fin a ∧ 0 ≤ a ∧ a ≤ twoPiQ := by
  have hb := fmod_bounds (x := x) twoPiQ_pos
  have hfm : Dbl.fmod (Dbl.fin x) (Dbl.fin twoPiQ) = Dbl.fin (fmod x twoPiQ) := by
    simp only [Dbl.fmod]
    rw [if_neg twoPiQ_pos.ne']
  simp only [stepElectronD, hx, twoPiD_eq, hfm, Dbl.lt]
  by_cases hneg : fmod x twoPiQ < 0
  · have hz : 0 < fmod x twoPiQ + twoPiQ := by linarith [hb.1]
    have hzy : fmod x twoPiQ + twoPiQ ≤ twoPiQ := by linarith
    have hr := roundD_of_pos_le hz hzy twoPiQ_fixed twoPiQ_le_maxFinite
    refine ⟨roundMag (fmod x twoPiQ + twoPiQ), ?_, hr.2.1, hr.2.2⟩
    simp only [hneg, decide_True, if_true, Dbl.add, hr.1]
  · refine ⟨fmod x twoPiQ, ?_, not_lt.mp hneg, hb.2.le⟩
    simp only [hneg, decide_False, Bool.false_eq_true, if_false]

set_option maxRecDepth 100000 in
/-- C1, as stated, fails in the code's arithmetic.  For the carbon state and `dt = 1e308`
the products `angularVelocity * dt` of the two shell-1 electrons (velocities `3.0` and `3.1`)
overflow to an infinity, `fmod` of it is NaN, `NaN < 0.0` is false, and their angles are
NaN.  For one electron at angle `0` with
angular velocity `-1e-20` and `dt = 1`, the remainder `-1e-20` is negative and
`-1e-20 + 2.0 * kPi` rounds to `2.0 * kPi`: the angle equals `2.0 * kPi`, the end of the
range that `step` reduces into. -/
theorem stepD_angle_counterexample :
    (((AtomSimulationD.construct counterRng "Carbon" 6 6 [2, 4] 42).step
        (roundD (10 ^ 308))).electrons_.map ElectronD.angle).take 2 = [Dbl.nan, Dbl.nan] ∧
      (AtomSimulationD.step
        (⟨"H", 1, 0, [1], [⟨1, Dbl.fin 0, roundD (-1 / 10 ^ 20)⟩], Dbl.fin 0, 0⟩ :
          AtomSimulationD Nat) (Dbl.fin 1)).electrons_.map ElectronD.angle = [twoPiD] ∧
      Dbl.lt twoPiD twoPiD = false := by
  refine ⟨by decide!, by decide!, by decide!⟩

/-- C1, amended.  For every state and every `dt` such that for each electron the sum
`angle + angularVelocity * dt` is a finite double (no overflow, no NaN), after `step(dt)`
every electron's angle is a finite double `a` with `0 ≤ a ≤ 2.0 * kPi`, and so
`0 ≤ a < 2 * π`. -/
theorem stepD_angle_range {σ : Type} (s : AtomSimulationD σ) (dt : Dbl)
    (hfin : ∀ e ∈ s.electrons_, ∃ x : ℚ,
      Dbl.add e.angle (Dbl.mul e.angularVelocity dt) = Dbl.fin x)
    (e : ElectronD) (he : e ∈ (s.step dt).electrons_) :
    twoPiD = Dbl.fin twoPiQ ∧
      ∃ a : ℚ, e.angle = Dbl.fin a ∧ 0 ≤ a ∧ a ≤ twoPiQ ∧ ((a : ℚ) : ℝ) < 2 * Real.pi := by
  refine ⟨twoPiD_eq, ?_⟩
  simp only [AtomSimulationD.step, List.mem_map] at he
  obtain ⟨e0, he0, rfl⟩ := he
  obtain ⟨x, hx⟩ := hfin e0 he0
  obtain ⟨a, ha, h0, h1⟩ := stepElectronD_range dt e0 x hx
  refine ⟨a, ha, h0, h1, ?_⟩
  have hc : ((a : ℚ) : ℝ) ≤ ((twoPiQ : ℚ) : ℝ) := by exact_mod_cast h1
  linarith [twoPiQ_lt_two_pi]

/-- C1, amended, at a concrete input: one electron at angle `1` with angular velocity `-3`,
stepped by `dt = 1`; the sum is `-2`, and the new angle is the double
`4.283185307179586`. -/
theorem stepD_angle_range_witness :
    (∀ e ∈ (⟨"H", 1, 0, [1], [⟨1, Dbl.fin 1, Dbl.fin (-3)⟩], Dbl.fin 0, 0⟩ :
          AtomSimulationD Nat).electrons_,
        ∃ x : ℚ, Dbl.add e.angle (Dbl.mul e.angularVelocity (Dbl.fin 1)) = Dbl.fin x) ∧
      (⟨1, Dbl.fin (602804742292899 / 140737488355328), Dbl.fin (-3)⟩ : ElectronD) ∈
        (AtomSimulationD.step
          (⟨"H", 1, 0, [1], [⟨1, Dbl.fin 1, Dbl.fin (-3)⟩], Dbl.fin 0, 0⟩ : AtomSimulationD Nat)
          (Dbl.fin 1)).electrons_ ∧
      (twoPiD = Dbl.fin twoPiQ ∧
        ∃ a : ℚ, Dbl.fin (602804742292899 / 140737488355328) = Dbl.fin a ∧ 0 ≤ a ∧ a ≤ twoPiQ ∧
          ((a : ℚ) : ℝ) < 2 * Real.pi) :=
  have hfin : ∀ e ∈ (⟨"H", 1, 0, [1], [⟨1, Dbl.fin 1, Dbl.fin (-3)⟩], Dbl.fin 0, 0⟩ :
        AtomSimulationD Nat).electrons_,
      ∃ x : ℚ, Dbl.add e.angle (Dbl.mul e.angularVelocity (Dbl.fin 1)) = Dbl.fin x := by
    intro e he
    have h : e = ⟨1, Dbl.fin 1, Dbl.fin (-3)⟩ := by simpa using he
    subst h
    exact ⟨-2, by decide!⟩
  ⟨hfin, by decide!,
   stepD_angle_range
     (⟨"H", 1, 0, [1], [⟨1, Dbl.fin 1, Dbl.fin (-3)⟩], Dbl.fin 0, 0⟩ : AtomSimulationD Nat)
     (Dbl.fin 1) hfin ⟨1, Dbl.fin (602804742292899 / 140737488355328), Dbl.fin (-3)⟩
     (by decide!)⟩

/-! ## `printState` and `main` in double arithmetic -/

theorem putDoubleD_prepend (S : StdLib) (N : Dbl → String) (t : String) (x : Dbl)
    (o : Ostream) :
    (Ostream.prepend t o).putDoubleD S N x = Ostream.prepend t (o.putDoubleD S N x) := by
  cases x <;> exact put_prepend t _ o

theorem printElectronD_prepend (S : StdLib) (N : Dbl → String) (t : String) (o : Ostream)
    (i : Nat) (e : ElectronD) :
    printElectronD S N (Ostream.prepend t o) i e =
      Ostream.prepend t (printElectronD S N o i e) := by
  simp only [printElectronD, put_prepend, putInt_prepend, putNat_prepend, putDoubleD_prepend,
    setw_prepend, setprecision_prepend]

theorem printElectronsD_prepend (S : StdLib) (N : Dbl → String) (t : String)
    (es : List ElectronD) :
    ∀ (i : Nat) (o : Ostream),
      printElectronsD S N i es (Ostream.prepend t o) =
        Ostream.prepend t (printElectronsD S N i es o) := by
  induction es with
  | nil => intro i o; rfl
  | cons e rest ih =>
    intro i o
    simp only [printElectronsD, printElectronD_prepend, ih]

theorem printStateD_prepend {σ : Type} (S : StdLib) (N : Dbl → String) (s : AtomSimulationD σ)
    (t : String) (o : Ostream) :
    (s.printState S N (Ostream.prepend t o)).2 = Ostream.prepend t (s.printState S N o).2 := by
  simp only [AtomSimulationD.printState, put_prepend, putInt_prepend, putNat_prepend,
    putDoubleD_prepend, setprecision_prepend, setFixed_prepend, printElectronsD_prepend]

theorem printStateD_flags {σ : Type} (S : StdLib) (N : Dbl → String) (s : AtomSimulationD σ)
    (t : String) (f : Bool) (p : Nat) :
    (s.printState S N ⟨t, f, p, 0⟩).2 = (s.printState S N ⟨t, false, 6, 0⟩).2 := by
  simp only [AtomSimulationD.printState, Ostream.put, Ostream.setFixed, Ostream.setprecision,
    Ostream.putDoubleD]

theorem printStateD_width {σ : Type} (S : StdLib) (N : Dbl → String) (s : AtomSimulationD σ)
    (o : Ostream) : (s.printState S N o).2.width = 0 := rfl

theorem printStateD_text {σ : Type} (S : StdLib) (N : Dbl → String) (s : AtomSimulationD σ)
    (t : String) (f : Bool) (p : Nat) :
    (s.printState S N ⟨t, f, p, 0⟩).2.text = t ++ snapshotD S N s := by
  have h := printStateD_prepend S N s t Ostream.initial
  have h0 : Ostream.prepend t Ostream.initial = ⟨t, false, 6, 0⟩ := by
    simp [Ostream.prepend, Ostream.initial]
  rw [h0] at h
  rw [printStateD_flags, h]
  rfl

theorem printStateD_text_of_width {σ : Type} (S : StdLib) (N : Dbl → String)
    (s : AtomSimulationD σ) (o : Ostream) (h : o.width = 0) :
    (s.printState S N o).2.text = o.text ++ snapshotD S N s := by
  obtain ⟨t, f, p, w⟩ := o
  simp only at h
  subst h
  exact printStateD_text S N s t f p

theorem stepsD_cons {σ : Type} (s : AtomSimulationD σ) (dt : Dbl) (dts : List Dbl) :
    s.steps (dt :: dts) = (s.step dt).steps dts := rfl

theorem stepsD_snoc {σ : Type} (s : AtomSimulationD σ) (dt : Dbl) (dts : List Dbl) :
    s.steps (dts ++ [dt]) = (s.steps dts).step dt := by
  simp [AtomSimulationD.steps, List.foldl_append]

theorem replicate_succ_snoc (n : Nat) (dt : Dbl) :
    List.replicate (n + 1) dt = List.replicate n dt ++ [dt] := by
  induction n with
  | zero => rfl
  | succ n ih =>
    show dt :: List.replicate (n + 1) dt = (dt :: List.replicate n dt) ++ [dt]
    rw [ih]
    rfl

theorem stepsD_replicate_time {σ : Type} (R : Rng σ) (elementName : String)
    (protons neutrons : Int) (occ : List Int) (seed : Nat) (dt : Dbl) :
    ∀ n : Nat,
      ((AtomSimulationD.construct R elementName protons neutrons occ seed).steps
        (List.replicate n dt)).time_ = timeAfterD dt n := by
  intro n
  induction n with
  | zero => rfl
  | succ n ih =>
    rw [replicate_succ_snoc, stepsD_snoc]
    simp only [AtomSimulationD.step, ih, timeAfterD]

theorem mainLoopD_spec {σ : Type} (S : StdLib) (N : Dbl → String) (dt : Dbl) :
    ∀ (n : Nat) (s : AtomSimulationD σ) (o : Ostream), o.width = 0 →
      (mainLoopD S N dt n (s, o)).1 = s.steps (List.replicate n dt) ∧
        (mainLoopD S N dt n (s, o)).2.text =
          o.text ++ String.join
            ((List.range n).map fun k => snapshotD S N (s.steps (List.replicate k dt))) := by
  intro n
  induction n with
  | zero => intro s o _; simp [mainLoopD, AtomSimulationD.steps, String.join]
  | succ n ih =>
    intro s o ho
    have h := ih (s.step dt) (s.printState S N o).2 (printStateD_width S N s o)
    have hcall : (s.printState S N o).1 = s := rfl
    simp only [mainLoopD, hcall]
    refine ⟨h.1, ?_⟩
    rw [h.2, printStateD_text_of_width S N s o ho, List.range_succ_eq_map, List.map_cons,
      string_join_cons, List.map_map, String.append_assoc]
    rfl

theorem ostream_eq_prepend (o : Ostream) :
    o = Ostream.prepend o.text ⟨"", o.fixed, o.precision, o.width⟩ := by
  obtain ⟨t, f, p, w⟩ := o
  simp [Ostream.prepend]

theorem put_starts (p : String) (o : Ostream) (x : String)
    (h : ∃ r : String, o.text = p ++ r) : ∃ r : String, (o.put x).text = p ++ r := by
  obtain ⟨r, hr⟩ := h
  exact ⟨r ++ padLeft o.width x, by simp only [Ostream.put, hr, String.append_assoc]⟩

theorem printElectronsD_starts (S : StdLib) (N : Dbl → String) (p : String)
    (es : List ElectronD) (i : Nat) (o : Ostream) (h : ∃ r : String, o.text = p ++ r) :
    ∃ r : String, (printElectronsD S N i es o).text = p ++ r := by
  obtain ⟨r, hr⟩ := h
  refine ⟨r ++ (printElectronsD S N i es ⟨"", o.fixed, o.precision, o.width⟩).text, ?_⟩
  conv_lhs => rw [ostream_eq_prepend o, printElectronsD_prepend]
  simp only [Ostream.prepend, hr, String.append_assoc]

theorem snapshotD_time {σ : Type} (S : StdLib) (N : Dbl → String) (s : AtomSimulationD σ)
    (t : ℚ) (ht : s.time_ = Dbl.fin t) :
    ∃ rest : String, snapshotD S N s = timeLine t ++ rest := by
  have h1 : ∃ r : String,
      (((((Ostream.initial.put "Time: ").setFixed.setprecision 2).putDoubleD S N
        s.time_).put " s\n")).text = timeLine t ++ r := by
    refine ⟨"", ?_⟩
    simp only [Ostream.initial, Ostream.put, Ostream.putDoubleD, Ostream.setFixed,
      Ostream.setprecision, fmtDoubleD, fmtDouble, ht, padLeft_zero, String.empty_append,
      if_true, timeLine, String.append_assoc, String.append_empty]
  unfold snapshotD AtomSimulationD.printState
  apply put_starts
  apply printElectronsD_starts
  apply put_starts
  apply put_starts
  apply put_starts
  apply put_starts
  apply put_starts
  apply put_starts
  apply put_starts
  apply put_starts
  apply put_starts
  apply put_starts
  exact h1

theorem mainD_time {σ : Type} (R : Rng σ) (S : StdLib) (N : Dbl → String) :
    (mainD R S N).2.1.time_ = timeAfterD (roundD (15 / 100)) 12 := by
  have h := (mainLoopD_spec S N (roundD (15 / 100)) 12
    (AtomSimulationD.construct R "Carbon" 6 6 [2, 4] defaultSeed) Ostream.initial rfl).1
  simp only [mainD]
  rw [h, stepsD_replicate_time]

theorem mainD_text {σ : Type} (R : Rng σ) (S : StdLib) (N : Dbl → String) :
    (mainD R S N).2.2.text =
      String.join ((List.range 12).map fun k =>
        snapshotD S N ((AtomSimulationD.construct R "Carbon" 6 6 [2, 4] defaultSeed).steps
          (List.replicate k (roundD (15 / 100))))) := by
  have hm := (mainLoopD_spec S N (roundD (15 / 100)) 12
    (AtomSimulationD.construct R "Carbon" 6 6 [2, 4] defaultSeed) Ostream.initial rfl).2
  rw [show Ostream.initial.text = "" from rfl, String.empty_append] at hm
  exact hm

theorem timeAfterD_driver :
    timeAfterD (roundD (15 / 100)) 12 = Dbl.fin (8106479329266891 / 4503599627370496) := by
  decide!

/-! ## C9: the driver, in double arithmetic -/

theorem driver_sum_ne_exact : (8106479329266891 / 4503599627370496 : ℚ) ≠ 18 / 10 := by
  decide!

theorem driver_sum_ne_literal :
    Dbl.fin (8106479329266891 / 4503599627370496) ≠ roundD (18 / 10) := by decide!

theorem driver_sum_ne_product :
    Dbl.fin (8106479329266891 / 4503599627370496) ≠
      Dbl.mul (Dbl.fin 12) (roundD (15 / 100)) := by decide!

theorem six_sum_ne_product :
    timeAfterD (roundD (15 / 100)) 6 ≠ Dbl.mul (Dbl.fin 6) (roundD (15 / 100)) := by decide!

theorem six_sum_ne_exact :
    timeAfterD (roundD (15 / 100)) 6 ≠ Dbl.fin (6 * (15 / 100)) := by decide!

/-- C9, as stated, fails in the code's arithmetic.  After the 12 additions of the double
`0.15` the driver's `time_` is the double `1.7999999999999996`, which is neither `1.80`
(as a number or as the double nearest to it) nor the product `12 * 0.15`; and already
after 6 calls of `step(0.15)` the sum differs from `6 * 0.15`. -/
theorem driverD_time_counterexample :
    (mainD counterRng circleLib sampleNonFinite).2.1.time_ =
        Dbl.fin (8106479329266891 / 4503599627370496) ∧
      (8106479329266891 / 4503599627370496 : ℚ) ≠ 18 / 10 ∧
      Dbl.fin (8106479329266891 / 4503599627370496) ≠ roundD (18 / 10) ∧
      Dbl.fin (8106479329266891 / 4503599627370496) ≠ Dbl.mul (Dbl.fin 12) (roundD (15 / 100)) ∧
      timeAfterD (roundD (15 / 100)) 6 ≠ Dbl.mul (Dbl.fin 6) (roundD (15 / 100)) ∧
      timeAfterD (roundD (15 / 100)) 6 ≠ Dbl.fin (6 * (15 / 100)) := by
  exact ⟨(mainD_time counterRng circleLib sampleNonFinite).trans timeAfterD_driver,
    driver_sum_ne_exact, driver_sum_ne_literal, driver_sum_ne_product, six_sum_ne_product,
    six_sum_ne_exact⟩

theorem driver_times :
    (List.range 13).map (timeAfterD (roundD (15 / 100))) =
      [Dbl.fin 0, Dbl.fin (5404319552844595 / 36028797018963968),
       Dbl.fin (5404319552844595 / 18014398509481984),
       Dbl.fin (2026619832316723 / 4503599627370496),
       Dbl.fin (5404319552844595 / 9007199254740992), Dbl.fin (3 / 4),
       Dbl.fin (8106479329266893 / 9007199254740992),
       Dbl.fin (4728779608739021 / 4503599627370496),
       Dbl.fin (5404319552844595 / 4503599627370496),
       Dbl.fin (6079859496950169 / 4503599627370496),
       Dbl.fin (6755399441055743 / 4503599627370496),
       Dbl.fin (7430939385161317 / 4503599627370496),
       Dbl.fin (8106479329266891 / 4503599627370496)] := by decide!

theorem driver_times_within :
    ∀ k ∈ List.range 13,
      Dbl.within (timeAfterD (roundD (15 / 100)) k) (k * (15 / 100)) (1 / 10 ^ 15) = true := by
  decide!

theorem driver_times_text :
    (List.range 12).map (fun k => fixedTextD 2 (timeAfterD (roundD (15 / 100)) k)) =
      [some "0.00", some "0.15", some "0.30", some "0.45", some "0.60", some "0.75",
       some "0.90", some "1.05", some "1.20", some "1.35", some "1.50", some "1.65"] := by
  decide!

theorem driver_sum_near :
    |(8106479329266891 / 4503599627370496 : ℚ) - 18 / 10| ≤ 1 / 10 ^ 15 := by decide!

theorem timeAfterD_err (d M : ℚ) (hM0 : 1 ≤ M) (hM2 : M ≤ 2 ^ 900) (hd : |d| ≤ M) :
    ∀ n : Nat, n ≤ 2 ^ 40 →
      ∃ t : ℚ, timeAfterD (Dbl.fin d) n = Dbl.fin t ∧
        |t - (n : ℚ) * d| ≤ (n : ℚ) ^ 2 * (M / 2 ^ 52) := by
  intro n
  induction n with
  | zero => intro _; exact ⟨0, rfl, by simp⟩
  | succ n ih =>
    intro hn
    obtain ⟨t, ht, hte⟩ := ih (by omega)
    have hN0 : (0 : ℚ) ≤ (n : ℚ) := Nat.cast_nonneg n
    have hN : (n : ℚ) ≤ 2 ^ 40 := by
      have : n ≤ 2 ^ 40 := by omega
      exact_mod_cast this
    have hu0 : 0 ≤ M / 2 ^ 52 := div_nonneg (by linarith) (by positivity)
    have hNu : (n : ℚ) * (M / 2 ^ 52) ≤ M := by
      have h1 : (n : ℚ) * (M / 2 ^ 52) ≤ 2 ^ 40 * (M / 2 ^ 52) :=
        mul_le_mul_of_nonneg_right hN hu0
      have h2 : (2 : ℚ) ^ 40 * (M / 2 ^ 52) = M / 2 ^ 12 := by norm_num; ring
      have h3 : M / 2 ^ 12 ≤ M := div_le_self (by linarith) (by norm_num)
      linarith
    have hNNu : (n : ℚ) ^ 2 * (M / 2 ^ 52) ≤ (n : ℚ) * M := by
      have := mul_le_mul_of_nonneg_left hNu hN0
      calc (n : ℚ) ^ 2 * (M / 2 ^ 52) = (n : ℚ) * ((n : ℚ) * (M / 2 ^ 52)) := by ring
        _ ≤ (n : ℚ) * M := this
    have hnd : |(n : ℚ) * d| ≤ (n : ℚ) * M := by
      rw [abs_mul, abs_of_nonneg hN0]
      exact mul_le_mul_of_nonneg_left hd hN0
    have q1 := abs_le.mp hte
    have q2 := abs_le.mp hnd
    have q3 := abs_le.mp hd
    have hsum : |t + d| ≤ (2 * (n : ℚ) + 1) * M := by
      rw [abs_le]; constructor <;> nlinarith
    have hNM : (n : ℚ) * M ≤ 2 ^ 40 * 2 ^ 900 :=
      mul_le_mul hN hM2 (by linarith) (by norm_num)
    have hB1 : 1 ≤ (2 * (n : ℚ) + 1) * M := by nlinarith
    have hB2 : (2 * (n : ℚ) + 1) * M ≤ 2 ^ 1000 := by
      have : (2 : ℚ) * (2 ^ 40 * 2 ^ 900) + 2 ^ 900 ≤ 2 ^ 1000 := by norm_num
      nlinarith
    obtain ⟨t1, ht1, ht1e, _⟩ := roundD_err_of_le hsum hB1 hB2
    refine ⟨t1, ?_, ?_⟩
    · simp only [timeAfterD, ht, Dbl.add, ht1]
    · have q4 := abs_le.mp ht1e
      have c1 : 2 * ((2 * (n : ℚ) + 1) * M / 2 ^ 53) = (2 * (n : ℚ) + 1) * (M / 2 ^ 52) := by
        norm_num; ring
      rw [c1] at q4
      have c2 : (((n + 1 : Nat) : ℚ)) ^ 2 * (M / 2 ^ 52) =
          (n : ℚ) ^ 2 * (M / 2 ^ 52) + (2 * (n : ℚ) + 1) * (M / 2 ^ 52) := by
        push_cast; ring
      rw [c2, abs_le]
      push_cast
      constructor <;> linarith

/-- C9, amended.  The driver, starting from `time_ = 0.0`, performs exactly 12 iterations,
each printing one snapshot and then calling `step(0.15)`: its output is the concatenation of
exactly 12 snapshots, the one with 0-based index `k` taken of the state after `k` steps,
whose `time_` is the sum of `k` double additions of `0.15`, within `1e-15` of `k * 0.15` and
printed as `k * 0.15` to two decimals (`0.00`, `0.15`, ..., `1.65`).  It ends with
`time_` equal to the double `1.7999999999999996`, within `1e-15` of `1.80`, and exit status
`0`.  In general `n ≤ 2 ^ 40` calls of `step(dt)` on a freshly constructed state, for a
finite `dt` with `|dt| ≤ M` where `1 ≤ M ≤ 2 ^ 900`, leave `time_` equal to the sum of `n`
double additions of `dt` to `0.0`, a finite double within `n ^ 2 * M / 2 ^ 52` of
`n * dt`. -/
theorem driverD_run {σ : Type} (R : Rng σ) (S : StdLib) (N : Dbl → String)
    (elementName : String) (protons neutrons : Int) (occ : List Int) (seed n : Nat)
    (d M : ℚ) (hM0 : 1 ≤ M) (hM2 : M ≤ 2 ^ 900) (hd : |d| ≤ M) (hn : n ≤ 2 ^ 40) :
    (mainD R S N).1 = 0 ∧
      (mainD R S N).2.2.text =
        String.join ((List.range 12).map fun k =>
          snapshotD S N ((AtomSimulationD.construct R "Carbon" 6 6 [2, 4] defaultSeed).steps
            (List.replicate k (roundD (15 / 100))))) ∧
      ((List.range 12).map fun k =>
          snapshotD S N ((AtomSimulationD.construct R "Carbon" 6 6 [2, 4] defaultSeed).steps
            (List.replicate k (roundD (15 / 100))))).length = 12 ∧
      (∀ k : Nat, ((AtomSimulationD.construct R "Carbon" 6 6 [2, 4] defaultSeed).steps
          (List.replicate k (roundD (15 / 100)))).time_ = timeAfterD (roundD (15 / 100)) k) ∧
      (∀ (k : Nat) (t : ℚ), timeAfterD (roundD (15 / 100)) k = Dbl.fin t →
        ∃ rest : String,
          snapshotD S N ((AtomSimulationD.construct R "Carbon" 6 6 [2, 4] defaultSeed).steps
            (List.replicate k (roundD (15 / 100)))) = timeLine t ++ rest) ∧
      (List.range 13).map (timeAfterD (roundD (15 / 100))) =
        [Dbl.fin 0, Dbl.fin (5404319552844595 / 36028797018963968),
         Dbl.fin (5404319552844595 / 18014398509481984),
         Dbl.fin (2026619832316723 / 4503599627370496),
         Dbl.fin (5404319552844595 / 9007199254740992), Dbl.fin (3 / 4),
         Dbl.fin (8106479329266893 / 9007199254740992),
         Dbl.fin (4728779608739021 / 4503599627370496),
         Dbl.fin (5404319552844595 / 4503599627370496),
         Dbl.fin (6079859496950169 / 4503599627370496),
         Dbl.fin (6755399441055743 / 4503599627370496),
         Dbl.fin (7430939385161317 / 4503599627370496),
         Dbl.fin (8106479329266891 / 4503599627370496)] ∧
      (∀ k ∈ List.range 13,
        Dbl.within (timeAfterD (roundD (15 / 100)) k) (k * (15 / 100)) (1 / 10 ^ 15) = true) ∧
      (List.range 12).map (fun k => fixedTextD 2 (timeAfterD (roundD (15 / 100)) k)) =
        [some "0.00", some "0.15", some "0.30", some "0.45", some "0.60", some "0.75",
         some "0.90", some "1.05", some "1.20", some "1.35", some "1.50", some "1.65"] ∧
      (mainD R S N).2.1.time_ = Dbl.fin (8106479329266891 / 4503599627370496) ∧
      |(8106479329266891 / 4503599627370496 : ℚ) - 18 / 10| ≤ 1 / 10 ^ 15 ∧
      ((AtomSimulationD.construct R elementName protons neutrons occ seed).steps
          (List.replicate n (Dbl.fin d))).time_ = timeAfterD (Dbl.fin d) n ∧
      ∃ t : ℚ, ((AtomSimulationD.construct R elementName protons neutrons occ seed).steps
          (List.replicate n (Dbl.fin d))).time_ = Dbl.fin t ∧
        |t - (n : ℚ) * d| ≤ (n : ℚ) ^ 2 * (M / 2 ^ 52) := by
  refine ⟨rfl, mainD_text R S N, by simp, ?_, ?_, driver_times, driver_times_within,
    driver_times_text, ?_, driver_sum_near, ?_, ?_⟩
  · intro k
    exact stepsD_replicate_time R "Carbon" 6 6 [2, 4] defaultSeed _ k
  · intro k t hk
    apply snapshotD_time
    rw [stepsD_replicate_time, hk]
  · exact (mainD_time R S N).trans timeAfterD_driver
  · exact stepsD_replicate_time R elementName protons neutrons occ seed (Dbl.fin d) n
  · obtain ⟨t, ht, hte⟩ := timeAfterD_err d M hM0 hM2 hd n hn
    exact ⟨t, (stepsD_replicate_time R elementName protons neutrons occ seed (Dbl.fin d)
      n).trans ht, hte⟩

/-- C9, amended, at a concrete input: the driver itself, with the counter generator, and
`n = 12` calls of `step(0.15)` on the carbon state with `M = 1`. -/
theorem driverD_run_witness :
    ((1 : ℚ) ≤ 1 ∧ (1 : ℚ) ≤ 2 ^ 900 ∧ |((5404319552844595 / 36028797018963968) : ℚ)| ≤ 1 ∧ 12 ≤ 2 ^ 40) ∧
      (mainD counterRng circleLib sampleNonFinite).1 = 0 ∧
      (mainD counterRng circleLib sampleNonFinite).2.1.time_ =
        Dbl.fin (8106479329266891 / 4503599627370496) ∧
      ∃ t : ℚ, ((AtomSimulationD.construct counterRng "Carbon" 6 6 [2, 4] 42).steps
          (List.replicate 12 (Dbl.fin (5404319552844595 / 36028797018963968)))).time_ = Dbl.fin t ∧
        |t - ((12 : Nat) : ℚ) * (5404319552844595 / 36028797018963968)| ≤ ((12 : Nat) : ℚ) ^ 2 * (1 / 2 ^ 52) :=
  have hd : |((5404319552844595 / 36028797018963968) : ℚ)| ≤ 1 := abs_le.mpr ⟨by norm_num, by norm_num⟩
  have h := driverD_run counterRng circleLib sampleNonFinite "Carbon" 6 6 [2, 4] 42 12
    (5404319552844595 / 36028797018963968) 1 le_rfl (by norm_num) hd (by norm_num)
  ⟨⟨le_rfl, by norm_num, hd, by norm_num⟩, h.1, h.2.2.2.2.2.2.2.2.1,
    h.2.2.2.2.2.2.2.2.2.2.2⟩

/-! ## C4: determinism -/

theorem fmtDoubleD_fixed (S : StdLib) (N : Dbl → String) (t : String) (p w : Nat) (x : Dbl) :
    fmtDoubleD S N ⟨t, true, p, w⟩ x = fixedD N p x := by
  cases x <;> simp [fmtDoubleD, fmtDouble, fixedD]

theorem printElectronD_text (S : StdLib) (N : Dbl → String) (t : String) (p i : Nat)
    (e : ElectronD) :
    printElectronD S N ⟨t, true, p, 0⟩ i e = ⟨t ++ electronLineD S N (i + 1) e, true, 3, 0⟩ := by
  have h : "] -> (" = "]" ++ " -> (" := by decide
  simp only [printElectronD, electronLineD, positionD, Ostream.put, Ostream.putNat,
    Ostream.putInt, Ostream.putDoubleD, Ostream.setw, Ostream.setprecision, padLeft_zero, h,
    String.append_assoc, fmtDoubleD_fixed]

theorem stepsD_shells {σ : Type} (dts : List Dbl) :
    ∀ s : AtomSimulationD σ,
      (s.steps dts).electrons_.map ElectronD.shell = s.electrons_.map ElectronD.shell := by
  induction dts with
  | nil => intro s; rfl
  | cons dt rest ih =>
    intro s
    rw [stepsD_cons, ih]
    simp only [AtomSimulationD.step, List.map_map]
    apply List.map_congr_left
    intro e _
    rfl

theorem Dbl.mul_fin (a b : ℚ) : Dbl.mul (Dbl.fin a) (Dbl.fin b) = roundD (a * b) := rfl

theorem roundD_eight_tenths :
    roundD (8 / 10) = Dbl.fin (3602879701896397 / 4503599627370496) := by decide!

theorem shellRadiusD_bounds (sh : Int) (h1 : 1 ≤ sh) (h2 : sh ≤ 2 ^ 31) :
    ∃ r : ℚ, shellRadiusD sh = Dbl.fin r ∧ 1 / 2 ≤ r ∧ r ≤ 2 ^ 31 ∧
      |r - 8 / 10 * (sh : ℚ)| ≤ (sh : ℚ) / 2 ^ 51 := by
  have hq1 : (1 : ℚ) ≤ (sh : ℚ) := by exact_mod_cast h1
  have hq2 : (sh : ℚ) ≤ 2 ^ 31 := by exact_mod_cast h2
  have habs : |(sh : ℚ)| = (sh : ℚ) := abs_of_nonneg (by linarith)
  have hp : (2 : ℚ) ^ 31 ≤ 2 ^ 1000 := by norm_num
  obtain ⟨n, hn, hne⟩ := roundD_err (q := (sh : ℚ)) (by rw [habs]; linarith)
  rw [habs] at hne
  have q1 := abs_le.mp hne
  have hη : (1 : ℚ) / 2 ^ 1075 ≤ 1 / 2 ^ 60 := by norm_num
  have hu : (sh : ℚ) / 2 ^ 53 ≤ (sh : ℚ) / 2 := by
    rw [div_le_div_iff₀ (by positivity) (by positivity)]
    have : (2 : ℚ) ≤ 2 ^ 53 := by norm_num
    nlinarith
  have hn0 : 0 ≤ n := by
    have : (1 : ℚ) / 2 ^ 60 ≤ 1 / 4 := by norm_num
    linarith
  have hprod0 : 0 ≤ 3602879701896397 / 4503599627370496 * n :=
    mul_nonneg (by norm_num) hn0
  have hu2 : (sh : ℚ) / 2 ^ 53 ≤ (sh : ℚ) := div_le_self (by linarith) (by norm_num)
  obtain ⟨r, hr, hre⟩ := roundD_err (q := 3602879701896397 / 4503599627370496 * n)
    (by rw [abs_of_nonneg hprod0]
        have : (1 : ℚ) / 2 ^ 60 ≤ 1 := by norm_num
        have : (2 : ℚ) ^ 31 * 3 ≤ 2 ^ 1000 := by norm_num
        linarith)
  rw [abs_of_nonneg hprod0] at hre
  have q2 := abs_le.mp hre
  have e1 : (3602879701896397 / 4503599627370496 * n) / 2 ^ 53 =
      3602879701896397 / 4503599627370496 / 2 ^ 53 * n := by ring
  rw [e1] at q2
  have e2 : (sh : ℚ) / 2 ^ 53 = 1 / 2 ^ 53 * (sh : ℚ) := by ring
  rw [e2] at q1
  have hη2 : (1 : ℚ) / 2 ^ 1075 ≤ 1 / 2 ^ 60 * (sh : ℚ) := by
    have : (1 : ℚ) / 2 ^ 60 * 1 ≤ 1 / 2 ^ 60 * (sh : ℚ) :=
      mul_le_mul_of_nonneg_left hq1 (by positivity)
    linarith
  refine ⟨r, ?_, ?_, ?_, ?_⟩
  · have e : shellRadiusD sh = Dbl.mul (roundD (8 / 10)) (roundD (sh : ℚ)) := rfl
    rw [e, roundD_eight_tenths, hn, Dbl.mul_fin]
    exact hr
  · norm_num at q1 q2 hη2 ⊢
    linarith
  · norm_num at q1 q2 hη2 ⊢
    linarith
  · have e3 : (sh : ℚ) / 2 ^ 51 = 1 / 2 ^ 51 * (sh : ℚ) := by ring
    rw [e3, abs_le]
    norm_num at q1 q2 hη2 ⊢
    constructor <;> linarith

theorem coordinate_err (r c : ℚ) (hr1 : 1 / 2 ≤ r) (hr2 : r ≤ 2 ^ 31) (hc : |c| ≤ 2) :
    ∃ x : ℚ, Dbl.mul (Dbl.fin r) (Dbl.fin c) = Dbl.fin x ∧ |x - r * c| ≤ 3 / 2 ^ 53 * r := by
  have hr0 : 0 ≤ r := by linarith
  have hrc : |r * c| ≤ 2 * r := by
    rw [abs_mul, abs_of_nonneg hr0]
    have := mul_le_mul_of_nonneg_left hc hr0
    linarith
  have hp : (2 : ℚ) * 2 ^ 31 ≤ 2 ^ 1000 := by norm_num
  obtain ⟨x, hx, hxe⟩ := roundD_err (q := r * c) (by linarith)
  refine ⟨x, by simp only [Dbl.mul, hx], ?_⟩
  have h1 : |r * c| / 2 ^ 53 ≤ 2 * r / 2 ^ 53 := by
    rw [div_le_div_iff_of_pos_right (by positivity)]; exact hrc
  have h2 : (1 : ℚ) / 2 ^ 1075 ≤ 1 / 2 ^ 53 * (1 / 2) := by norm_num
  have h3 : (1 : ℚ) / 2 ^ 53 * (1 / 2) ≤ 1 / 2 ^ 53 * r :=
    mul_le_mul_of_nonneg_left hr1 (by positivity)
  have e : 3 / 2 ^ 53 * r = 2 * r / 2 ^ 53 + 1 / 2 ^ 53 * r := by ring
  rw [e]
  linarith

theorem circle_err (C S1 cx cy E : ℝ) (hCS : C ^ 2 + S1 ^ 2 = 1)
    (hx : |cx - C| ≤ E) (hy : |cy - S1| ≤ E) :
    |cx ^ 2 + cy ^ 2 - 1| ≤ 4 * E + 2 * E ^ 2 := by
  have hE : 0 ≤ E := le_trans (abs_nonneg _) hx
  have hC : |C| ≤ 1 := by
    rw [abs_le]; constructor <;> nlinarith [sq_nonneg S1, sq_nonneg (C - 1), sq_nonneg (C + 1)]
  have hS : |S1| ≤ 1 := by
    rw [abs_le]; constructor <;> nlinarith [sq_nonneg C, sq_nonneg (S1 - 1), sq_nonneg (S1 + 1)]
  have h1 : |C * (cx - C)| ≤ E := by
    rw [abs_mul]
    calc |C| * |cx - C| ≤ 1 * E := mul_le_mul hC hx (abs_nonneg _) (by norm_num)
      _ = E := one_mul E
  have h2 : |S1 * (cy - S1)| ≤ E := by
    rw [abs_mul]
    calc |S1| * |cy - S1| ≤ 1 * E := mul_le_mul hS hy (abs_nonneg _) (by norm_num)
      _ = E := one_mul E
  have h3 : (cx - C) ^ 2 ≤ E ^ 2 := sq_le_sq' (abs_le.mp hx).1 (abs_le.mp hx).2
  have h4 : (cy - S1) ^ 2 ≤ E ^ 2 := sq_le_sq' (abs_le.mp hy).1 (abs_le.mp hy).2
  have q1 := abs_le.mp h1
  have q2 := abs_le.mp h2
  have e : cx ^ 2 + cy ^ 2 - 1 =
      2 * (C * (cx - C)) + (cx - C) ^ 2 + 2 * (S1 * (cy - S1)) + (cy - S1) ^ 2 := by
    have : (1 : ℝ) = C ^ 2 + S1 ^ 2 := hCS.symm
    rw [this]; ring
  rw [e, abs_le]
  constructor <;> nlinarith [sq_nonneg (cx - C), sq_nonneg (cy - S1)]

theorem position_circle (S : StdLib) (sh : Int) (a ε : ℚ) (h1 : 1 ≤ sh) (h2 : sh ≤ 2 ^ 31)
    (hε0 : 0 ≤ ε) (hε1 : ε ≤ 1)
    (hc : |((S.cos a : ℚ) : ℝ) - Real.cos (a : ℝ)| ≤ (ε : ℝ))
    (hs : |((S.sin a : ℚ) : ℝ) - Real.sin (a : ℝ)| ≤ (ε : ℝ)) :
    ∃ r x y : ℚ, shellRadiusD sh = Dbl.fin r ∧
      Dbl.mul (shellRadiusD sh) (cosD S (Dbl.fin a)) = Dbl.fin x ∧
      Dbl.mul (shellRadiusD sh) (sinD S (Dbl.fin a)) = Dbl.fin y ∧
      |r - 8 / 10 * (sh : ℚ)| ≤ (sh : ℚ) / 2 ^ 51 ∧
      |x * x + y * y - r * r| ≤ (6 * ε + 1 / 2 ^ 48) * (r * r) := by
  obtain ⟨r, hr, hr1, hr2, hr3⟩ := shellRadiusD_bounds sh h1 h2
  have hr0 : 0 < r := by linarith
  have hεr0 : (0 : ℝ) ≤ (ε : ℝ) := by exact_mod_cast hε0
  have hεr1 : (ε : ℝ) ≤ 1 := by exact_mod_cast hε1
  have hcb : |S.cos a| ≤ 2 := by
    have h := abs_le.mp hc
    have hcos := Real.cos_le_one (a : ℝ)
    have hcos2 := Real.neg_one_le_cos (a : ℝ)
    have : |((S.cos a : ℚ) : ℝ)| ≤ 2 := by rw [abs_le]; constructor <;> linarith
    exact_mod_cast this
  have hsb : |S.sin a| ≤ 2 := by
    have h := abs_le.mp hs
    have hsin := Real.sin_le_one (a : ℝ)
    have hsin2 := Real.neg_one_le_sin (a : ℝ)
    have : |((S.sin a : ℚ) : ℝ)| ≤ 2 := by rw [abs_le]; constructor <;> linarith
    exact_mod_cast this
  obtain ⟨x, hx, hxe⟩ := coordinate_err r (S.cos a) hr1 hr2 hcb
  obtain ⟨y, hy, hye⟩ := coordinate_err r (S.sin a) hr1 hr2 hsb
  refine ⟨r, x, y, hr, by rw [hr]; exact hx, by rw [hr]; exact hy, hr3, ?_⟩
  -- the estimate, over the reals
  have hrR : (0 : ℝ) < (r : ℝ) := by exact_mod_cast hr0
  have hxR : |(x : ℝ) - (r : ℝ) * ((S.cos a : ℚ) : ℝ)| ≤ 3 / 2 ^ 53 * (r : ℝ) := by
    have h := (Rat.cast_le (K := ℝ)).mpr hxe
    rw [Rat.cast_abs] at h
    push_cast at h
    exact h
  have hyR : |(y : ℝ) - (r : ℝ) * ((S.sin a : ℚ) : ℝ)| ≤ 3 / 2 ^ 53 * (r : ℝ) := by
    have h := (Rat.cast_le (K := ℝ)).mpr hye
    rw [Rat.cast_abs] at h
    push_cast at h
    exact h
  have hdx : |(x : ℝ) / r - ((S.cos a : ℚ) : ℝ)| ≤ 3 / 2 ^ 53 := by
    have e : (x : ℝ) / r - ((S.cos a : ℚ) : ℝ) = ((x : ℝ) - r * ((S.cos a : ℚ) : ℝ)) / r := by
      field_simp
    rw [e, abs_div, abs_of_pos hrR, div_le_iff₀ hrR]
    exact hxR
  have hdy : |(y : ℝ) / r - ((S.sin a : ℚ) : ℝ)| ≤ 3 / 2 ^ 53 := by
    have e : (y : ℝ) / r - ((S.sin a : ℚ) : ℝ) = ((y : ℝ) - r * ((S.sin a : ℚ) : ℝ)) / r := by
      field_simp
    rw [e, abs_div, abs_of_pos hrR, div_le_iff₀ hrR]
    exact hyR
  have hEx : |(x : ℝ) / r - Real.cos (a : ℝ)| ≤ (ε : ℝ) + 3 / 2 ^ 53 := by
    have q1 := abs_le.mp hdx
    have q2 := abs_le.mp hc
    rw [abs_le]; constructor <;> linarith
  have hEy : |(y : ℝ) / r - Real.sin (a : ℝ)| ≤ (ε : ℝ) + 3 / 2 ^ 53 := by
    have q1 := abs_le.mp hdy
    have q2 := abs_le.mp hs
    rw [abs_le]; constructor <;> linarith
  have hcirc := circle_err (Real.cos (a : ℝ)) (Real.sin (a : ℝ)) ((x : ℝ) / r) ((y : ℝ) / r)
    ((ε : ℝ) + 3 / 2 ^ 53) (Real.cos_sq_add_sin_sq (a : ℝ)) hEx hEy
  have hbound : 4 * ((ε : ℝ) + 3 / 2 ^ 53) + 2 * ((ε : ℝ) + 3 / 2 ^ 53) ^ 2 ≤
      6 * (ε : ℝ) + 1 / 2 ^ 48 := by
    have hsq : (ε : ℝ) ^ 2 ≤ (ε : ℝ) := by nlinarith
    nlinarith
  have hfin : |(x : ℝ) * x + y * y - r * r| ≤ (6 * (ε : ℝ) + 1 / 2 ^ 48) * ((r : ℝ) * r) := by
    have e : (x : ℝ) * x + y * y - r * r =
        (((x : ℝ) / r) ^ 2 + ((y : ℝ) / r) ^ 2 - 1) * ((r : ℝ) * r) := by
      field_simp
      ring
    rw [e, abs_mul, abs_of_pos (mul_pos hrR hrR)]
    exact mul_le_mul_of_nonneg_right (le_trans hcirc hbound) (mul_pos hrR hrR).le
  rw [← Rat.cast_le (K := ℝ), Rat.cast_abs]
  push_cast
  exact hfin

theorem pi_sub_three_bounds : (0.1415 : ℝ) < Real.pi - 3 ∧ Real.pi - 3 < 0.1416 := by
  constructor
  · linarith [Real.pi_gt_d4]
  · linarith [Real.pi_lt_d4]

theorem cos_three_near : |(-4458529838789353 / 4503599627370496 : ℝ) - Real.cos 3| ≤ 1 / 1000 := by
  obtain ⟨hlo, hhi⟩ := pi_sub_three_bounds
  have hy0 : (0 : ℝ) < Real.pi - 3 := by linarith
  have hy1 : |Real.pi - 3| ≤ 1 := by rw [abs_of_pos hy0]; linarith
  have hb := Real.cos_bound hy1
  rw [abs_of_pos hy0] at hb
  have hcos : Real.cos (Real.pi - 3) = -Real.cos 3 := Real.cos_pi_sub 3
  rw [hcos] at hb
  have h2lo : (0.02 : ℝ) ≤ (Real.pi - 3) ^ 2 := by nlinarith
  have h2hi : (Real.pi - 3) ^ 2 ≤ 0.0201 := by nlinarith
  have h4 : (Real.pi - 3) ^ 4 ≤ 0.0005 := by
    have e : (Real.pi - 3) ^ 4 = ((Real.pi - 3) ^ 2) ^ 2 := by ring
    rw [e]; nlinarith
  have q := abs_le.mp hb
  rw [abs_le]
  constructor <;> norm_num at * <;> linarith

theorem sin_three_near : |(5084384125703515 / 36028797018963968 : ℝ) - Real.sin 3| ≤ 1 / 1000 := by
  obtain ⟨hlo, hhi⟩ := pi_sub_three_bounds
  have hy0 : (0 : ℝ) < Real.pi - 3 := by linarith
  have hy1 : |Real.pi - 3| ≤ 1 := by rw [abs_of_pos hy0]; linarith
  have hb := Real.sin_bound hy1
  rw [abs_of_pos hy0] at hb
  have hsin : Real.sin (Real.pi - 3) = Real.sin 3 := Real.sin_pi_sub 3
  rw [hsin] at hb
  have h2lo : (0.02 : ℝ) ≤ (Real.pi - 3) ^ 2 := by nlinarith
  have h2hi : (Real.pi - 3) ^ 2 ≤ 0.0201 := by nlinarith
  have h3lo : (0.0028 : ℝ) ≤ (Real.pi - 3) ^ 3 := by
    have e : (Real.pi - 3) ^ 3 = (Real.pi - 3) ^ 2 * (Real.pi - 3) := by ring
    rw [e]; nlinarith
  have h3hi : (Real.pi - 3) ^ 3 ≤ 0.0029 := by
    have e : (Real.pi - 3) ^ 3 = (Real.pi - 3) ^ 2 * (Real.pi - 3) := by ring
    rw [e]; nlinarith
  have h4 : (Real.pi - 3) ^ 4 ≤ 0.0005 := by
    have e : (Real.pi - 3) ^ 4 = ((Real.pi - 3) ^ 2) ^ 2 := by ring
    rw [e]; nlinarith
  have q := abs_le.mp hb
  rw [abs_le]
  constructor <;> norm_num at * <;> linarith

theorem trigNear3_cos :
    |(((trigNear3 0 0).cos 3 : ℚ) : ℝ) - Real.cos ((3 : ℚ) : ℝ)| ≤ ((1 / 1000 : ℚ) : ℝ) := by
  have e1 : (((trigNear3 0 0).cos 3 : ℚ) : ℝ) = -4458529838789353 / 4503599627370496 := by
    simp only [trigNear3]; norm_num
  have e2 : ((3 : ℚ) : ℝ) = 3 := by norm_num
  have e3 : ((1 / 1000 : ℚ) : ℝ) = 1 / 1000 := by norm_num
  rw [e1, e2, e3]
  exact cos_three_near

theorem trigNear3_sin :
    |(((trigNear3 0 0).sin 3 : ℚ) : ℝ) - Real.sin ((3 : ℚ) : ℝ)| ≤ ((1 / 1000 : ℚ) : ℝ) := by
  have e1 : (((trigNear3 0 0).sin 3 : ℚ) : ℝ) = 5084384125703515 / 36028797018963968 := by
    simp only [trigNear3]; norm_num
  have e2 : ((3 : ℚ) : ℝ) = 3 := by norm_num
  have e3 : ((1 / 1000 : ℚ) : ℝ) = 1 / 1000 := by norm_num
  rw [e1, e2, e3]
  exact sin_three_near

set_option maxRecDepth 100000 in
theorem circle_fails_near3 :
    ∀ i ∈ ([-1, 0, 1] : List Int), ∀ j ∈ ([-1, 0, 1] : List Int),
      onCircleExact (trigNear3 i j) ⟨1, Dbl.fin 3, Dbl.fin 3⟩ = false ∧
        onCircleD (trigNear3 i j) ⟨1, Dbl.fin 3, Dbl.fin 3⟩ = false := by
  decide!

set_option maxRecDepth 100000 in
theorem position_near3 :
    positionD (trigNear3 0 0) ⟨1, Dbl.fin 3, Dbl.fin 3⟩ =
      (Dbl.fin (-7133647742062965 / 9007199254740992), Dbl.fin (1016876825140703 / 9007199254740992)) := by decide!

set_option maxRecDepth 100000 in
theorem reach_angle_three :
    (AtomSimulationD.steps (AtomSimulationD.construct counterRng "H" 1 0 [1] 0) [Dbl.fin 1]).electrons_ = [(⟨1, Dbl.fin 3, Dbl.fin 3⟩ : ElectronD)] := by decide!

theorem circle_exact_near3 :
    (-7133647742062965 / 9007199254740992 : ℚ) * (-7133647742062965 / 9007199254740992) +
        1016876825140703 / 9007199254740992 * (1016876825140703 / 9007199254740992) ≠
      3602879701896397 / 4503599627370496 * (3602879701896397 / 4503599627370496) := by
  decide!

theorem circle_literal_near3 :
    (-7133647742062965 / 9007199254740992 : ℚ) * (-7133647742062965 / 9007199254740992) +
        1016876825140703 / 9007199254740992 * (1016876825140703 / 9007199254740992) ≠
      8 / 10 * (8 / 10) := by
  decide!

theorem shellRadiusD_one :
    shellRadiusD 1 = Dbl.fin (3602879701896397 / 4503599627370496) := by decide!

theorem construct_angle_zero :
    (AtomSimulationD.construct counterRng "H" 1 0 [1] 0).electrons_ = [⟨1, Dbl.fin 0, Dbl.fin 3⟩] := by decide!

/-- C15, as stated, fails in the code's arithmetic.  The carbon-like state with one
electron constructed at angle `0` with angular velocity `3.0` reaches the angle `3.0` after
`step(1.0)`.  There, with the binary64 numbers nearest to `cos 3` and `sin 3` as library
results, and with each of the eight other combinations of their neighbours one last place
away, `x² + y²` differs from `r²` for `r = 0.8 * 1`, both as numbers and when `x * x + y * y`
and `r * r` are evaluated in double arithmetic; with the nearest values
`x = -0.7919939972803564`, `y = 0.11289600644789377`, and `x² + y²` is neither `r²` nor
`0.64`. -/
theorem shell_circleD_counterexample :
    (AtomSimulationD.steps (AtomSimulationD.construct counterRng "H" 1 0 [1] 0) [Dbl.fin 1]).electrons_ = [(⟨1, Dbl.fin 3, Dbl.fin 3⟩ : ElectronD)] ∧
      (∀ i ∈ ([-1, 0, 1] : List Int), ∀ j ∈ ([-1, 0, 1] : List Int),
        onCircleExact (trigNear3 i j) (⟨1, Dbl.fin 3, Dbl.fin 3⟩ : ElectronD) = false ∧
          onCircleD (trigNear3 i j) (⟨1, Dbl.fin 3, Dbl.fin 3⟩ : ElectronD) = false) ∧
      positionD (trigNear3 0 0) (⟨1, Dbl.fin 3, Dbl.fin 3⟩ : ElectronD) =
        (Dbl.fin (-7133647742062965 / 9007199254740992),
          Dbl.fin (1016876825140703 / 9007199254740992)) ∧
      shellRadiusD 1 = Dbl.fin (3602879701896397 / 4503599627370496) ∧
      (-7133647742062965 / 9007199254740992 : ℚ) * (-7133647742062965 / 9007199254740992) +
          1016876825140703 / 9007199254740992 * (1016876825140703 / 9007199254740992) ≠
        3602879701896397 / 4503599627370496 * (3602879701896397 / 4503599627370496) ∧
      (-7133647742062965 / 9007199254740992 : ℚ) * (-7133647742062965 / 9007199254740992) +
          1016876825140703 / 9007199254740992 * (1016876825140703 / 9007199254740992) ≠
        8 / 10 * (8 / 10) :=
  ⟨reach_angle_three, circle_fails_near3, position_near3, shellRadiusD_one,
    circle_exact_near3, circle_literal_near3⟩

/-- C15, amended.  Electrons stay on fixed circular shells up to the accuracy of the
arithmetic.  Take a state all of whose shells are between `1` and `2 ^ 31`, any sequence of
`step` calls, and an electron `e` of the state reached.  The line `printState` writes for
`e` shows the position `(x, y) = (radius * cos(angle), radius * sin(angle))` computed in
double arithmetic with `radius = shellRadius(shell)`; the radii of the electrons are the same
before and after the steps; and when the angle of `e` is finite and the library's
`cos(angle)` and `sin(angle)` are within `ε ≤ 1` of the cosine and sine, `radius` is a
finite `r` within `shell / 2 ^ 51` of `0.8 * shell`, `x` and `y` are finite, and
`x² + y²` differs from `r²` by at most `(6 * ε + 2 ^ (-48)) * r²`. -/
theorem shell_circleD {σ : Type} (S : StdLib) (N : Dbl → String) (s : AtomSimulationD σ)
    (dts : List Dbl) (e : ElectronD) (a ε : ℚ)
    (hsh : ∀ e0 ∈ AtomSimulationD.electrons_ s, 1 ≤ e0.shell ∧ e0.shell ≤ 2 ^ 31)
    (he : e ∈ (s.steps dts).electrons_) (ha : e.angle = Dbl.fin a)
    (hε0 : 0 ≤ ε) (hε1 : ε ≤ 1)
    (hc : |((S.cos a : ℚ) : ℝ) - Real.cos (a : ℝ)| ≤ (ε : ℝ))
    (hs : |((S.sin a : ℚ) : ℝ) - Real.sin (a : ℝ)| ≤ (ε : ℝ)) :
    (∀ (t : String) (p i : Nat),
        printElectronD S N ⟨t, true, p, 0⟩ i e =
          ⟨t ++ electronLineD S N (i + 1) e, true, 3, 0⟩) ∧
      (AtomSimulationD.steps s dts).electrons_.map (fun e1 => shellRadiusD e1.shell) =
        (AtomSimulationD.electrons_ s).map (fun e1 => shellRadiusD e1.shell) ∧
      ∃ r x y : ℚ, shellRadiusD (ElectronD.shell e) = Dbl.fin r ∧
        positionD S e = (Dbl.fin x, Dbl.fin y) ∧
        |r - 8 / 10 * (e.shell : ℚ)| ≤ (e.shell : ℚ) / 2 ^ 51 ∧
        |x * x + y * y - r * r| ≤ (6 * ε + 1 / 2 ^ 48) * (r * r) := by
  have h := stepsD_shells dts s
  have hmem : e.shell ∈ s.electrons_.map ElectronD.shell := by
    rw [← h]; exact List.mem_map_of_mem ElectronD.shell he
  obtain ⟨e0, he0, heq⟩ := List.mem_map.mp hmem
  have hb := hsh e0 he0
  rw [heq] at hb
  refine ⟨fun t p i => printElectronD_text S N t p i e, ?_, ?_⟩
  · have e1 : ∀ l : List ElectronD,
        l.map (fun e1 => shellRadiusD e1.shell) = (l.map ElectronD.shell).map shellRadiusD := by
      intro l; simp only [List.map_map, Function.comp_def]
    rw [e1, e1, h]
  · obtain ⟨r, x, y, hr, hx, hy, hr3, hxy⟩ :=
      position_circle S e.shell a ε hb.1 hb.2 hε0 hε1 hc hs
    refine ⟨r, x, y, hr, ?_, hr3, hxy⟩
    simp only [positionD, ha, hx, hy]

/-- C15, amended, at a concrete input: the state with one shell-1 electron constructed at
angle `0` and stepped once by `dt = 1.0`, whose electron is at angle `3.0`; the library
results are the binary64 numbers nearest to `cos 3` and `sin 3`, within `1 / 1000` of the
cosine and sine. -/
theorem shell_circleD_witness :
    ((∀ e0 ∈ AtomSimulationD.electrons_ (AtomSimulationD.construct counterRng "H" 1 0 [1] 0), 1 ≤ e0.shell ∧ e0.shell ≤ 2 ^ 31) ∧
      (⟨1, Dbl.fin 3, Dbl.fin 3⟩ : ElectronD) ∈ (AtomSimulationD.steps (AtomSimulationD.construct counterRng "H" 1 0 [1] 0) [Dbl.fin 1]).electrons_ ∧
      ElectronD.angle (⟨1, Dbl.fin 3, Dbl.fin 3⟩ : ElectronD) = Dbl.fin 3 ∧ (0 : ℚ) ≤ 1 / 1000 ∧ (1 / 1000 : ℚ) ≤ 1 ∧
      |(((trigNear3 0 0).cos 3 : ℚ) : ℝ) - Real.cos ((3 : ℚ) : ℝ)| ≤ ((1 / 1000 : ℚ) : ℝ) ∧
      |(((trigNear3 0 0).sin 3 : ℚ) : ℝ) - Real.sin ((3 : ℚ) : ℝ)| ≤ ((1 / 1000 : ℚ) : ℝ)) ∧
    ((∀ (t : String) (p i : Nat),
        printElectronD (trigNear3 0 0) sampleNonFinite ⟨t, true, p, 0⟩ i (⟨1, Dbl.fin 3, Dbl.fin 3⟩ : ElectronD) =
          ⟨t ++ electronLineD (trigNear3 0 0) sampleNonFinite (i + 1) (⟨1, Dbl.fin 3, Dbl.fin 3⟩ : ElectronD), true, 3, 0⟩) ∧
      (AtomSimulationD.steps (AtomSimulationD.construct counterRng "H" 1 0 [1] 0) [Dbl.fin 1]).electrons_.map (fun e1 => shellRadiusD e1.shell) =
        (AtomSimulationD.electrons_ (AtomSimulationD.construct counterRng "H" 1 0 [1] 0)).map (fun e1 => shellRadiusD e1.shell) ∧
      ∃ r x y : ℚ, shellRadiusD (ElectronD.shell (⟨1, Dbl.fin 3, Dbl.fin 3⟩ : ElectronD)) = Dbl.fin r ∧
        positionD (trigNear3 0 0) (⟨1, Dbl.fin 3, Dbl.fin 3⟩ : ElectronD) = (Dbl.fin x, Dbl.fin y) ∧
        |r - 8 / 10 * ((ElectronD.shell (⟨1, Dbl.fin 3, Dbl.fin 3⟩ : ElectronD) : Int) : ℚ)| ≤ ((ElectronD.shell (⟨1, Dbl.fin 3, Dbl.fin 3⟩ : ElectronD) : Int) : ℚ) / 2 ^ 51 ∧
        |x * x + y * y - r * r| ≤ (6 * (1 / 1000) + 1 / 2 ^ 48) * (r * r)) :=
  have hsh : ∀ e0 ∈ AtomSimulationD.electrons_ (AtomSimulationD.construct counterRng "H" 1 0 [1] 0), 1 ≤ e0.shell ∧ e0.shell ≤ 2 ^ 31 := by
    intro e0 he0
    rw [construct_angle_zero] at he0
    have h : e0 = ⟨1, Dbl.fin 0, Dbl.fin 3⟩ := List.mem_singleton.mp he0
    subst h
    exact ⟨by decide, by decide⟩
  have hmem : (⟨1, Dbl.fin 3, Dbl.fin 3⟩ : ElectronD) ∈ (AtomSimulationD.steps (AtomSimulationD.construct counterRng "H" 1 0 [1] 0) [Dbl.fin 1]).electrons_ := by
    rw [reach_angle_three]; exact List.mem_singleton.mpr rfl
  ⟨⟨hsh, hmem, rfl, by norm_num, by norm_num, trigNear3_cos, trigNear3_sin⟩,
   shell_circleD (trigNear3 0 0) sampleNonFinite (AtomSimulationD.construct counterRng "H" 1 0 [1] 0) [Dbl.fin 1] (⟨1, Dbl.fin 3, Dbl.fin 3⟩ : ElectronD) 3 (1 / 1000)
     hsh hmem rfl (by norm_num) (by norm_num) trigNear3_cos trigNear3_sin⟩

/-! ## C17: additivity of `step` in double arithmetic -/

theorem twoPiQ_ge_one : 1 ≤ twoPiQ := by
  unfold twoPiQ; norm_num

theorem stepElectronD_angle_of_sum (dt : Dbl) (e : ElectronD) (x : ℚ)
    (hx : Dbl.add e.angle (Dbl.mul e.angularVelocity dt) = Dbl.fin x) :
    (stepElectronD dt e).angle =
      if fmod x twoPiQ < 0 then Dbl.fin (roundMag (fmod x twoPiQ + twoPiQ))
      else Dbl.fin (fmod x twoPiQ) := by
  have hb := fmod_bounds (x := x) twoPiQ_pos
  have hfm : Dbl.fmod (Dbl.fin x) (Dbl.fin twoPiQ) = Dbl.fin (fmod x twoPiQ) := by
    simp only [Dbl.fmod]
    rw [if_neg twoPiQ_pos.ne']
  simp only [stepElectronD, hx, twoPiD_eq, hfm, Dbl.lt]
  by_cases hneg : fmod x twoPiQ < 0
  · have hz : 0 < fmod x twoPiQ + twoPiQ := by linarith [hb.1]
    have hzy : fmod x twoPiQ + twoPiQ ≤ twoPiQ := by linarith
    have hr := roundD_of_pos_le hz hzy twoPiQ_fixed twoPiQ_le_maxFinite
    simp only [hneg, decide_True, if_true, Dbl.add, hr.1]
  · simp only [hneg, decide_False, Bool.false_eq_true, if_false]

theorem stepElectronD_err (dt : Dbl) (e : ElectronD) (a v d M : ℚ)
    (hea : e.angle = Dbl.fin a) (hev : e.angularVelocity = Dbl.fin v) (hdt : dt = Dbl.fin d)
    (hM1 : twoPiQ ≤ M) (hM2 : M ≤ 2 ^ 998) (ha : |a| ≤ M) (hp : |v * d| ≤ M) :
    ∃ (a1 : ℚ) (k : Int),
      (stepElectronD dt e).angle = Dbl.fin a1 ∧
        0 ≤ a1 ∧ a1 ≤ twoPiQ ∧ |a1 - (a + v * d - (k : ℚ) * twoPiQ)| ≤ M / 2 ^ 49 := by
  have hT1 := twoPiQ_ge_one
  have hM0 : 1 ≤ M := le_trans hT1 hM1
  have hpow : (2 : ℚ) ^ 998 * 4 ≤ 2 ^ 1000 := by norm_num
  obtain ⟨p, hp1, hp2, hp3⟩ := roundD_err_of_le hp hM0 (by linarith)
  have hab : |a + p| ≤ 3 * M := le_trans (abs_add a p) (by linarith)
  obtain ⟨x, hx1, hx2, _⟩ := roundD_err_of_le hab (by linarith) (by linarith)
  have hsum : Dbl.add e.angle (Dbl.mul e.angularVelocity dt) = Dbl.fin x := by
    rw [hea, hev, hdt]
    simp only [Dbl.mul, Dbl.add, hp1, hx1]
  have hb := fmod_bounds (x := x) twoPiQ_pos
  have hf : fmod x twoPiQ = x - (truncQ (x / twoPiQ) : ℚ) * twoPiQ := rfl
  have e53 : M / 2 ^ 49 = 16 * (M / 2 ^ 53) := by norm_num; ring
  have hMnn : 0 ≤ M / 2 ^ 53 := div_nonneg (by linarith) (by positivity)
  have h5 := abs_le.mp hp2
  have h6 := abs_le.mp hx2
  rw [stepElectronD_angle_of_sum dt e x hsum]
  by_cases hneg : fmod x twoPiQ < 0
  · have hz : 0 < fmod x twoPiQ + twoPiQ := by linarith [hb.1]
    have hzy : fmod x twoPiQ + twoPiQ ≤ twoPiQ := by linarith
    have hr := roundD_of_pos_le hz hzy twoPiQ_fixed twoPiQ_le_maxFinite
    have herr := roundMag_err hz.le
    have h7 : (fmod x twoPiQ + twoPiQ) / 2 ^ 53 ≤ M / 2 ^ 53 := by
      rw [div_le_div_iff_of_pos_right (by positivity)]; linarith
    have h8 := tiny_le hM0
    have h9 := abs_le.mp (le_trans herr (add_le_add h7 h8))
    refine ⟨roundMag (fmod x twoPiQ + twoPiQ), truncQ (x / twoPiQ) - 1, ?_,
      hr.2.1, hr.2.2, ?_⟩
    · rw [if_pos hneg]
    · rw [e53, abs_le]
      push_cast
      constructor <;> linarith
  · refine ⟨fmod x twoPiQ, truncQ (x / twoPiQ), ?_, not_lt.mp hneg, hb.2.le, ?_⟩
    · rw [if_neg hneg]
    · rw [e53, abs_le]
      constructor <;> linarith

theorem stepElectronD_velocity (dt : Dbl) (e : ElectronD) :
    (stepElectronD dt e).angularVelocity = e.angularVelocity := rfl

theorem stepElectronD_shell (dt : Dbl) (e : ElectronD) :
    (stepElectronD dt e).shell = e.shell := rfl

theorem stepsD_replicate_electrons {σ : Type} (s : AtomSimulationD σ) (dt : Dbl) (n : Nat) :
    (s.steps (List.replicate n dt)).electrons_ =
      s.electrons_.map ((stepElectronD dt)^[n]) := by
  induction n with
  | zero => simp [AtomSimulationD.steps]
  | succ n ih =>
    rw [replicate_succ_snoc, stepsD_snoc]
    simp only [AtomSimulationD.step, ih, List.map_map]
    apply List.map_congr_left
    intro e _
    simp only [Function.comp, Function.iterate_succ_apply']

theorem stepElectronD_iterate (e : ElectronD) (a v d M : ℚ)
    (hea : e.angle = Dbl.fin a) (hev : e.angularVelocity = Dbl.fin v)
    (hM1 : twoPiQ ≤ M) (hM2 : M ≤ 2 ^ 998) (ha : |a| ≤ M) (hp : |v * d| ≤ M) (n : Nat) :
    ∃ (an : ℚ) (k : Int), ((stepElectronD (Dbl.fin d))^[n] e).angle = Dbl.fin an ∧
      ((stepElectronD (Dbl.fin d))^[n] e).angularVelocity = Dbl.fin v ∧ |an| ≤ M ∧
      (0 < n → 0 ≤ an ∧ an ≤ twoPiQ) ∧
      |an - (a + v * (n : ℚ) * d - (k : ℚ) * twoPiQ)| ≤ (n : ℚ) * (M / 2 ^ 49) := by
  induction n with
  | zero => exact ⟨a, 0, hea, hev, ha, fun h => absurd h (lt_irrefl 0), by simp⟩
  | succ n ih =>
    obtain ⟨an, k, h1, h2, h3, _, h5⟩ := ih
    rw [Function.iterate_succ_apply']
    obtain ⟨a1, k1, g1, g2, g3, g4⟩ :=
      stepElectronD_err (Dbl.fin d) _ an v d M h1 h2 rfl hM1 hM2 h3 hp
    refine ⟨a1, k + k1, g1, ?_, ?_, fun _ => ⟨g2, g3⟩, ?_⟩
    · rw [stepElectronD_velocity]; exact h2
    · rw [abs_le]; constructor <;> linarith
    · have h6 := abs_le.mp h5
      have h7 := abs_le.mp g4
      push_cast
      rw [abs_le]
      constructor <;> linarith

theorem stepElectronD_additive (e : ElectronD) (a v d1 d2 M : ℚ)
    (hea : e.angle = Dbl.fin a) (hev : e.angularVelocity = Dbl.fin v)
    (hM1 : twoPiQ ≤ M) (hM2 : M ≤ 2 ^ 990) (ha : |a| ≤ M) (hv : |v| ≤ M)
    (hd1 : |d1| ≤ M) (hd2 : |d2| ≤ M) (hp1 : |v * d1| ≤ M) (hp2 : |v * d2| ≤ M) :
    ∃ (a2 a1 : ℚ) (m : Int),
      (stepElectronD (Dbl.fin d2) (stepElectronD (Dbl.fin d1) e)).angle = Dbl.fin a2 ∧
      (stepElectronD (Dbl.add (Dbl.fin d1) (Dbl.fin d2)) e).angle = Dbl.fin a1 ∧
      (0 ≤ a2 ∧ a2 ≤ twoPiQ) ∧ (0 ≤ a1 ∧ a1 ≤ twoPiQ) ∧
      |a2 - a1 - (m : ℚ) * twoPiQ| ≤ M / 2 ^ 46 := by
  have hM0 : 1 ≤ M := le_trans twoPiQ_ge_one hM1
  have hpow : (2 : ℚ) ^ 990 * 4 ≤ 2 ^ 998 := by norm_num
  have hpow2 : (2 : ℚ) ^ 998 ≤ 2 ^ 1000 := by norm_num
  have hu : 0 ≤ M / 2 ^ 53 := div_nonneg (by linarith) (by positivity)
  obtain ⟨b, k1, f1, f2, f3, f4⟩ :=
    stepElectronD_err (Dbl.fin d1) e a v d1 M hea hev rfl hM1 (by linarith) ha hp1
  have hb : |b| ≤ M := abs_le.mpr ⟨by linarith, by linarith⟩
  obtain ⟨a2, k2, g1, g2, g3, g4⟩ :=
    stepElectronD_err (Dbl.fin d2) (stepElectronD (Dbl.fin d1) e) b v d2 M f1
      ((stepElectronD_velocity _ e).trans hev) rfl hM1 (by linarith) hb hp2
  have hd12 : |d1 + d2| ≤ 2 * M := le_trans (abs_add d1 d2) (by linarith)
  obtain ⟨d, hd, hde⟩ := roundD_err (q := d1 + d2) (by linarith)
  have hvs : |v * (d1 + d2)| ≤ 2 * M := by
    have : v * (d1 + d2) = v * d1 + v * d2 := by ring
    rw [this]
    exact le_trans (abs_add _ _) (by linarith)
  have hvδ : |v * (d - (d1 + d2))| ≤ 3 * (M / 2 ^ 53) := by
    rw [abs_mul]
    have h1 : |v| * |d - (d1 + d2)| ≤ |v| * (|d1 + d2| / 2 ^ 53 + 1 / 2 ^ 1075) :=
      mul_le_mul_of_nonneg_left hde (abs_nonneg v)
    have h2 : |v| * (|d1 + d2| / 2 ^ 53 + 1 / 2 ^ 1075) =
        |v * (d1 + d2)| / 2 ^ 53 + |v| * (1 / 2 ^ 1075) := by rw [abs_mul]; ring
    have h3 : |v * (d1 + d2)| / 2 ^ 53 ≤ 2 * M / 2 ^ 53 := by
      rw [div_le_div_iff_of_pos_right (by positivity)]; exact hvs
    have h4 : |v| * (1 / 2 ^ 1075) ≤ M * (1 / 2 ^ 1075) :=
      mul_le_mul_of_nonneg_right hv (by positivity)
    have h5 : M * (1 / 2 ^ 1075) ≤ M / 2 ^ 53 := by
      have : (1 : ℚ) / 2 ^ 1075 ≤ 1 / 2 ^ 53 := by norm_num
      have h6 : M * (1 / 2 ^ 1075) ≤ M * (1 / 2 ^ 53) :=
        mul_le_mul_of_nonneg_left this (by linarith)
      have h7 : M * (1 / 2 ^ 53) = M / 2 ^ 53 := by ring
      linarith
    have h8 : 2 * M / 2 ^ 53 = 2 * (M / 2 ^ 53) := by ring
    linarith
  have hδ := abs_le.mp hvδ
  have hs := abs_le.mp hvs
  have hu2 : M / 2 ^ 53 ≤ M / 3 := by
    rw [div_le_div_iff₀ (by positivity) (by positivity)]
    have : (3 : ℚ) ≤ 2 ^ 53 := by norm_num
    nlinarith
  have hvd : |v * d| ≤ 3 * M := by
    have e1 : v * d = v * (d1 + d2) + v * (d - (d1 + d2)) := by ring
    rw [e1, abs_le]
    constructor <;> linarith
  have hdt : Dbl.add (Dbl.fin d1) (Dbl.fin d2) = Dbl.fin d := by
    simp only [Dbl.add]; exact hd
  obtain ⟨a1, k, e1, e2, e3, e4⟩ :=
    stepElectronD_err (Dbl.add (Dbl.fin d1) (Dbl.fin d2)) e a v d (3 * M) hea hev hdt
      (by linarith) (by linarith) (by linarith) hvd
  refine ⟨a2, a1, k - k1 - k2, g1, e1, ⟨g2, g3⟩, ⟨e2, e3⟩, ?_⟩
  have q1 := abs_le.mp f4
  have q2 := abs_le.mp g4
  have q3 := abs_le.mp e4
  have c1 : M / 2 ^ 49 = 16 * (M / 2 ^ 53) := by norm_num; ring
  have c2 : 3 * M / 2 ^ 49 = 48 * (M / 2 ^ 53) := by norm_num; ring
  have c3 : M / 2 ^ 46 = 128 * (M / 2 ^ 53) := by norm_num; ring
  rw [c1] at q1 q2
  rw [c2] at q3
  rw [c3, abs_le]
  push_cast
  constructor <;> linarith

theorem time_additive (t d1 d2 M : ℚ) (hM0 : 1 ≤ M) (hM2 : M ≤ 2 ^ 990)
    (ht : |t| ≤ M) (hd1 : |d1| ≤ M) (hd2 : |d2| ≤ M) :
    ∃ t2 t1 : ℚ, Dbl.add (Dbl.add (Dbl.fin t) (Dbl.fin d1)) (Dbl.fin d2) = Dbl.fin t2 ∧
      Dbl.add (Dbl.fin t) (Dbl.add (Dbl.fin d1) (Dbl.fin d2)) = Dbl.fin t1 ∧
      |t2 - t1| ≤ M / 2 ^ 48 := by
  have hpow : (2 : ℚ) ^ 990 * 8 ≤ 2 ^ 1000 := by norm_num
  obtain ⟨s1, hs1, hs1e, hs1b⟩ :=
    roundD_err_of_le (q := t + d1) (B := 2 * M) (le_trans (abs_add _ _) (by linarith))
      (by linarith) (by linarith)
  obtain ⟨t2, ht2, ht2e, _⟩ :=
    roundD_err_of_le (q := s1 + d2) (B := 5 * M) (le_trans (abs_add _ _) (by linarith))
      (by linarith) (by linarith)
  obtain ⟨d, hd, hde, hdb⟩ :=
    roundD_err_of_le (q := d1 + d2) (B := 2 * M) (le_trans (abs_add _ _) (by linarith))
      (by linarith) (by linarith)
  obtain ⟨t1, ht1, ht1e, _⟩ :=
    roundD_err_of_le (q := t + d) (B := 5 * M) (le_trans (abs_add _ _) (by linarith))
      (by linarith) (by linarith)
  refine ⟨t2, t1, ?_, ?_, ?_⟩
  · simp only [Dbl.add, hs1, ht2]
  · simp only [Dbl.add, hd, ht1]
  · have q1 := abs_le.mp hs1e
    have q2 := abs_le.mp ht2e
    have q3 := abs_le.mp hde
    have q4 := abs_le.mp ht1e
    have c1 : 2 * M / 2 ^ 53 = 2 * (M / 2 ^ 53) := by ring
    have c2 : 5 * M / 2 ^ 53 = 5 * (M / 2 ^ 53) := by ring
    have c3 : M / 2 ^ 48 = 32 * (M / 2 ^ 53) := by norm_num; ring
    rw [c1] at q1 q3
    rw [c2] at q2 q4
    rw [c3, abs_le]
    constructor <;> linarith

theorem two_steps_angle :
    ((AtomSimulationD.step
        (⟨"H", 1, 0, [1], [⟨1, Dbl.fin 1, Dbl.fin 1⟩], Dbl.fin 0, 0⟩ : AtomSimulationD Nat)
        (roundD (15 / 100))).step (roundD (15 / 100))).electrons_.map ElectronD.angle =
      [Dbl.fin (1463669878895411 / 1125899906842624)] := by decide!

theorem one_step_angle :
    (AtomSimulationD.step
        (⟨"H", 1, 0, [1], [⟨1, Dbl.fin 1, Dbl.fin 1⟩], Dbl.fin 0, 0⟩ : AtomSimulationD Nat)
        (Dbl.add (roundD (15 / 100)) (roundD (15 / 100)))).electrons_.map ElectronD.angle =
      [Dbl.fin (5854679515581645 / 4503599627370496)] := by decide!

theorem two_steps_ne_one_step :
    [Dbl.fin (1463669878895411 / 1125899906842624)] ≠
      [Dbl.fin (5854679515581645 / 4503599627370496)] := by decide!

theorem zero_steps_angle :
    (AtomSimulationD.steps
        (⟨"H", 1, 0, [1], [⟨1, Dbl.fin 7, Dbl.fin 0⟩], Dbl.fin 0, 0⟩ : AtomSimulationD Nat)
        (List.replicate 0 (Dbl.fin 1))).electrons_.map ElectronD.angle = [Dbl.fin 7] := by
  decide!

theorem seven_above_range : Dbl.lt twoPiD (Dbl.fin 7) = true := by decide!

/-- C17, as stated, fails.  In the code's arithmetic, for one electron at angle `1.0` with
angular velocity `1.0`, `step(0.15)` twice leaves the angle `1.2999999999999998`, while
`step(0.15 + 0.15)` leaves `1.3`.  And for `n = 0` the closed form fails: after zero calls
a state holding the angle `7.0` still holds `7.0`, which is above `2.0 * kPi` and so is not
a normalized angle. -/
theorem stepD_additive_counterexample :
    ((AtomSimulationD.step
          (⟨"H", 1, 0, [1], [⟨1, Dbl.fin 1, Dbl.fin 1⟩], Dbl.fin 0, 0⟩ : AtomSimulationD Nat)
          (roundD (15 / 100))).step (roundD (15 / 100))).electrons_.map ElectronD.angle ≠
        (AtomSimulationD.step
          (⟨"H", 1, 0, [1], [⟨1, Dbl.fin 1, Dbl.fin 1⟩], Dbl.fin 0, 0⟩ : AtomSimulationD Nat)
          (Dbl.add (roundD (15 / 100)) (roundD (15 / 100)))).electrons_.map ElectronD.angle ∧
      ((AtomSimulationD.step
          (⟨"H", 1, 0, [1], [⟨1, Dbl.fin 1, Dbl.fin 1⟩], Dbl.fin 0, 0⟩ : AtomSimulationD Nat)
          (roundD (15 / 100))).step (roundD (15 / 100))).electrons_.map ElectronD.angle =
        [Dbl.fin (1463669878895411 / 1125899906842624)] ∧
      (AtomSimulationD.step
          (⟨"H", 1, 0, [1], [⟨1, Dbl.fin 1, Dbl.fin 1⟩], Dbl.fin 0, 0⟩ : AtomSimulationD Nat)
          (Dbl.add (roundD (15 / 100)) (roundD (15 / 100)))).electrons_.map ElectronD.angle =
        [Dbl.fin (5854679515581645 / 4503599627370496)] ∧
      (AtomSimulationD.steps
          (⟨"H", 1, 0, [1], [⟨1, Dbl.fin 7, Dbl.fin 0⟩], Dbl.fin 0, 0⟩ : AtomSimulationD Nat)
          (List.replicate 0 (Dbl.fin 1))).electrons_.map ElectronD.angle = [Dbl.fin 7] ∧
      Dbl.lt twoPiD (Dbl.fin 7) = true := by
  refine ⟨?_, two_steps_angle, one_step_angle, zero_steps_angle, seven_above_range⟩
  rw [two_steps_angle, one_step_angle]
  exact two_steps_ne_one_step

/-- C17, amended.  In double arithmetic `step(dt1)` followed by `step(dt2)` agrees with the
single `step(dt1 + dt2)` up to rounding.  Let `M` with `2.0 * kPi ≤ M ≤ 2 ^ 990` bound the
magnitudes of `time_`, `dt1`, `dt2` and of every electron's angle, angular velocity and
advances `angularVelocity * dt1`, `angularVelocity * dt2`, all finite.  Then, electron by
electron, both computations leave the same shell and angular velocity and finite angles in
`[0, 2.0 * kPi]` that differ by a whole multiple of `2.0 * kPi` up to at most `M / 2 ^ 46`;
the two values of `time_` differ by at most `M / 2 ^ 48`; and after `n` calls of `step(dt1)`
each angle is, up to a whole multiple of `2.0 * kPi` and at most `n * M / 2 ^ 49`,
`initialAngle + angularVelocity * n * dt1`, and lies in `[0, 2.0 * kPi]` when `n ≥ 1`. -/
theorem stepD_additive {σ : Type} (s : AtomSimulationD σ) (t d1 d2 M : ℚ) (n : Nat)
    (hM1 : twoPiQ ≤ M) (hM2 : M ≤ 2 ^ 990)
    (ht : s.time_ = Dbl.fin t) (htM : |t| ≤ M) (hd1 : |d1| ≤ M) (hd2 : |d2| ≤ M)
    (he : ∀ e ∈ AtomSimulationD.electrons_ s, ∃ a v : ℚ,
      e.angle = Dbl.fin a ∧ e.angularVelocity = Dbl.fin v ∧
        |a| ≤ M ∧ |v| ≤ M ∧ |v * d1| ≤ M ∧ |v * d2| ≤ M) :
    twoPiD = Dbl.fin twoPiQ ∧
      List.Forall₂
        (fun e2 e1 : ElectronD =>
          e2.shell = e1.shell ∧ e2.angularVelocity = e1.angularVelocity ∧
            ∃ (a2 a1 : ℚ) (m : Int), e2.angle = Dbl.fin a2 ∧ e1.angle = Dbl.fin a1 ∧
              (0 ≤ a2 ∧ a2 ≤ twoPiQ) ∧ (0 ≤ a1 ∧ a1 ≤ twoPiQ) ∧
              |a2 - a1 - (m : ℚ) * twoPiQ| ≤ M / 2 ^ 46)
        ((AtomSimulationD.step (AtomSimulationD.step s (Dbl.fin d1)) (Dbl.fin d2)).electrons_)
        ((AtomSimulationD.step s (Dbl.add (Dbl.fin d1) (Dbl.fin d2))).electrons_) ∧
      (∃ t2 t1 : ℚ,
        (AtomSimulationD.step (AtomSimulationD.step s (Dbl.fin d1)) (Dbl.fin d2)).time_ =
            Dbl.fin t2 ∧
          (AtomSimulationD.step s (Dbl.add (Dbl.fin d1) (Dbl.fin d2))).time_ = Dbl.fin t1 ∧
          |t2 - t1| ≤ M / 2 ^ 48) ∧
      List.Forall₂
        (fun e0 en : ElectronD =>
          ∃ (a v an : ℚ) (k : Int), e0.angle = Dbl.fin a ∧ e0.angularVelocity = Dbl.fin v ∧
            en.angle = Dbl.fin an ∧ (0 < n → 0 ≤ an ∧ an ≤ twoPiQ) ∧
            |an - (a + v * ((n : Nat) : ℚ) * d1 - (k : ℚ) * twoPiQ)| ≤
              ((n : Nat) : ℚ) * (M / 2 ^ 49))
        (AtomSimulationD.electrons_ s)
        ((AtomSimulationD.steps s (List.replicate n (Dbl.fin d1))).electrons_) := by
  have hM0 : 1 ≤ M := le_trans twoPiQ_ge_one hM1
  have hpow : (2 : ℚ) ^ 990 ≤ 2 ^ 998 := by norm_num
  refine ⟨twoPiD_eq, ?_, ?_, ?_⟩
  · simp only [AtomSimulationD.step, List.map_map]
    rw [List.forall₂_map_left_iff, List.forall₂_map_right_iff, List.forall₂_same]
    intro e hmem
    obtain ⟨a, v, hea, hev, ha, hv, hp1, hp2⟩ := he e hmem
    exact ⟨rfl, rfl, stepElectronD_additive e a v d1 d2 M hea hev hM1 hM2 ha hv hd1 hd2 hp1 hp2⟩
  · obtain ⟨t2, t1, h2, h1, h3⟩ := time_additive t d1 d2 M hM0 hM2 htM hd1 hd2
    refine ⟨t2, t1, ?_, ?_, h3⟩
    · simp only [AtomSimulationD.step, ht]
      exact h2
    · simp only [AtomSimulationD.step, ht]
      exact h1
  · rw [stepsD_replicate_electrons, List.forall₂_map_right_iff, List.forall₂_same]
    intro e hmem
    obtain ⟨a, v, hea, hev, ha, _, hp1, _⟩ := he e hmem
    obtain ⟨an, k, h1, _, _, h4, h5⟩ :=
      stepElectronD_iterate e a v d1 M hea hev hM1 (by linarith) ha hp1 n
    exact ⟨a, v, an, k, hea, hev, h1, h4, h5⟩

/-- C17, amended, at a concrete input: one electron at angle `1.0` with angular velocity
`1.0`, `time_ = 0`, `dt1 = dt2 = 0.15` (the double), `M = 8`, `n = 2`. -/
theorem stepD_additive_witness :
    (twoPiQ ≤ 8 ∧ (8 : ℚ) ≤ 2 ^ 990 ∧
      AtomSimulationD.time_ (⟨"H", 1, 0, [1], [⟨1, Dbl.fin 1, Dbl.fin 1⟩], Dbl.fin 0, 0⟩ : AtomSimulationD Nat) = Dbl.fin 0 ∧
      |(0 : ℚ)| ≤ 8 ∧ |((5404319552844595 / 36028797018963968) : ℚ)| ≤ 8 ∧
      (∀ e ∈ AtomSimulationD.electrons_ (⟨"H", 1, 0, [1], [⟨1, Dbl.fin 1, Dbl.fin 1⟩], Dbl.fin 0, 0⟩ : AtomSimulationD Nat), ∃ a v : ℚ,
      e.angle = Dbl.fin a ∧ e.angularVelocity = Dbl.fin v ∧
        |a| ≤ 8 ∧ |v| ≤ 8 ∧ |v * (5404319552844595 / 36028797018963968)| ≤ 8 ∧ |v * (5404319552844595 / 36028797018963968)| ≤ 8)) ∧
    (twoPiD = Dbl.fin twoPiQ ∧
      List.Forall₂
        (fun e2 e1 : ElectronD =>
          e2.shell = e1.shell ∧ e2.angularVelocity = e1.angularVelocity ∧
            ∃ (a2 a1 : ℚ) (m : Int), e2.angle = Dbl.fin a2 ∧ e1.angle = Dbl.fin a1 ∧
              (0 ≤ a2 ∧ a2 ≤ twoPiQ) ∧ (0 ≤ a1 ∧ a1 ≤ twoPiQ) ∧
              |a2 - a1 - (m : ℚ) * twoPiQ| ≤ 8 / 2 ^ 46)
        ((AtomSimulationD.step (AtomSimulationD.step (⟨"H", 1, 0, [1], [⟨1, Dbl.fin 1, Dbl.fin 1⟩], Dbl.fin 0, 0⟩ : AtomSimulationD Nat) (Dbl.fin (5404319552844595 / 36028797018963968))) (Dbl.fin (5404319552844595 / 36028797018963968))).electrons_)
        ((AtomSimulationD.step (⟨"H", 1, 0, [1], [⟨1, Dbl.fin 1, Dbl.fin 1⟩], Dbl.fin 0, 0⟩ : AtomSimulationD Nat) (Dbl.add (Dbl.fin (5404319552844595 / 36028797018963968)) (Dbl.fin (5404319552844595 / 36028797018963968)))).electrons_) ∧
      (∃ t2 t1 : ℚ,
        (AtomSimulationD.step (AtomSimulationD.step (⟨"H", 1, 0, [1], [⟨1, Dbl.fin 1, Dbl.fin 1⟩], Dbl.fin 0, 0⟩ : AtomSimulationD Nat) (Dbl.fin (5404319552844595 / 36028797018963968))) (Dbl.fin (5404319552844595 / 36028797018963968))).time_ =
            Dbl.fin t2 ∧
          (AtomSimulationD.step (⟨"H", 1, 0, [1], [⟨1, Dbl.fin 1, Dbl.fin 1⟩], Dbl.fin 0, 0⟩ : AtomSimulationD Nat) (Dbl.add (Dbl.fin (5404319552844595 / 36028797018963968)) (Dbl.fin (5404319552844595 / 36028797018963968)))).time_ = Dbl.fin t1 ∧
          |t2 - t1| ≤ 8 / 2 ^ 48) ∧
      List.Forall₂
        (fun e0 en : ElectronD =>
          ∃ (a v an : ℚ) (k : Int), e0.angle = Dbl.fin a ∧ e0.angularVelocity = Dbl.fin v ∧
            en.angle = Dbl.fin an ∧ (0 < 2 → 0 ≤ an ∧ an ≤ twoPiQ) ∧
            |an - (a + v * ((2 : Nat) : ℚ) * (5404319552844595 / 36028797018963968) - (k : ℚ) * twoPiQ)| ≤
              ((2 : Nat) : ℚ) * (8 / 2 ^ 49))
        (AtomSimulationD.electrons_ (⟨"H", 1, 0, [1], [⟨1, Dbl.fin 1, Dbl.fin 1⟩], Dbl.fin 0, 0⟩ : AtomSimulationD Nat))
        ((AtomSimulationD.steps (⟨"H", 1, 0, [1], [⟨1, Dbl.fin 1, Dbl.fin 1⟩], Dbl.fin 0, 0⟩ : AtomSimulationD Nat) (List.replicate 2 (Dbl.fin (5404319552844595 / 36028797018963968)))).electrons_)) :=
  have h8 : |((5404319552844595 / 36028797018963968) : ℚ)| ≤ 8 := abs_le.mpr ⟨by norm_num, by norm_num⟩
  have hT : twoPiQ ≤ 8 := by unfold twoPiQ; norm_num
  have he : ∀ e ∈ AtomSimulationD.electrons_ (⟨"H", 1, 0, [1], [⟨1, Dbl.fin 1, Dbl.fin 1⟩], Dbl.fin 0, 0⟩ : AtomSimulationD Nat), ∃ a v : ℚ,
      e.angle = Dbl.fin a ∧ e.angularVelocity = Dbl.fin v ∧
        |a| ≤ 8 ∧ |v| ≤ 8 ∧ |v * (5404319552844595 / 36028797018963968)| ≤ 8 ∧ |v * (5404319552844595 / 36028797018963968)| ≤ 8 := by
    intro e he
    have h : e = ⟨1, Dbl.fin 1, Dbl.fin 1⟩ := by simpa using he
    subst h
    exact ⟨1, 1, rfl, rfl, by norm_num, by norm_num, by rw [one_mul]; exact h8,
      by rw [one_mul]; exact h8⟩
  ⟨⟨hT, by norm_num, rfl, by norm_num, h8, he⟩,
   stepD_additive (⟨"H", 1, 0, [1], [⟨1, Dbl.fin 1, Dbl.fin 1⟩], Dbl.fin 0, 0⟩ : AtomSimulationD Nat) 0 (5404319552844595 / 36028797018963968) (5404319552844595 / 36028797018963968) 8 2 hT (by norm_num) rfl (by norm_num) h8 h8 he⟩

end Atom
